import Mathlib

/-!
Verification of the marine-radar location generator's geometry core.

This file gives a shallow embedding, in Lean 4, of the core pipeline of the
`radarloc_generator` package:

* `coordinate_transform.py` — the equirectangular projection and its inverse,
  modelled over `ℝ` with `Real.cos` (the one place real trigonometry occurs);
* `osm_query.py`'s `_douglas_peucker` — polyline simplification, modelled over
  exact rationals.  The Python code compares Euclidean distances obtained via
  `math.sqrt`; since every compared quantity is a square root of a
  nonnegative rational, each comparison is encoded sqrt-free:
  `sqrt a > sqrt b ↔ a > b`, and `sqrt a > eps ↔ eps < 0 ∨ eps² < a`.
  This encoding is exact for every input, so the rational model agrees with
  the source in exact real arithmetic;
* `osm_query.py`'s `_assemble_multipolygon` — greedy ring assembly;
* `osm_query.py`'s `query_water_features` — the feature-extraction passes that
  run after the Overpass HTTP fetch (the fetch itself is an excluded
  collaborator; its already-parsed JSON payload is the model's input);
* `radarloc_builder.py`'s `validate_radarloc` — the document validator.

Machine floats in the source are modelled as exact rational / real
arithmetic.  Python's `round` (banker's rounding) is modelled by
`roundHalfEven`.  Python's `str` formatting of integer ids inside f-strings
is modelled by `intStr` (decimal notation, minus sign for negatives).
-/

/-- A point of the local tangent plane, in meters (exact rationals). -/
abbrev Pt := ℚ × ℚ

/-- `METERS_PER_DEGREE` from `coordinate_transform.py` (real-valued copy). -/
noncomputable def METERS_PER_DEGREE : ℝ := 111132.954

/-- `math.radians`: degrees to radians. -/
noncomputable def radians (d : ℝ) : ℝ := d * Real.pi / 180

/-- `latlon_to_xy(lat, lon, origin_lat, origin_lon)` from
`coordinate_transform.py`, in exact real arithmetic. -/
noncomputable def latlon_to_xy (lat lon origin_lat origin_lon : ℝ) : ℝ × ℝ :=
  ((lon - origin_lon) * METERS_PER_DEGREE * Real.cos (radians origin_lat),
   (lat - origin_lat) * METERS_PER_DEGREE)

/-- The divisor `METERS_PER_DEGREE * cos(radians(origin_lat))` used for the
longitude component of `xy_to_latlon`. -/
noncomputable def lonDivisor (origin_lat : ℝ) : ℝ :=
  METERS_PER_DEGREE * Real.cos (radians origin_lat)

/-- `xy_to_latlon(x, y, origin_lat, origin_lon)` from
`coordinate_transform.py`, in exact real arithmetic.  (Lean's total real
division returns 0 on a zero divisor; the divisor is zero exactly at the
poles, see `lonDivisor`.) -/
noncomputable def xy_to_latlon (x y origin_lat origin_lon : ℝ) : ℝ × ℝ :=
  (origin_lat + y / METERS_PER_DEGREE,
   origin_lon + x / (METERS_PER_DEGREE * Real.cos (radians origin_lat)))

/-- Python's `round` to an integer: round to nearest, ties to even (banker's
rounding). -/
def roundHalfEven (q : ℚ) : ℤ :=
  let f := q.floor
  if q - f = 1 / 2 then (if f % 2 = 0 then f else f + 1)
  else if q - f < 1 / 2 then f else f + 1

/-- Python's `round(q, 1)`. -/
def pyRound1 (q : ℚ) : ℚ := (roundHalfEven (q * 10) : ℚ) / 10

/-- Python's `round(q, 2)`. -/
def pyRound2 (q : ℚ) : ℚ := (roundHalfEven (q * 100) : ℚ) / 100

/-!  ## Douglas–Peucker simplifier (`_douglas_peucker` in `osm_query.py`)  -/

/-- The squared distance computed inside `_douglas_peucker`'s scan loop for a
candidate point `p` against the chord from `s` to `e`: the clamped projection
of `p` onto the chord when the chord has positive length, else the squared
Euclidean distance from `s`.  (The source stores `sqrt` of this value and
only ever compares it; see the module comment.) -/
def perpDistSq (s e p : Pt) : ℚ :=
  let dx := e.1 - s.1
  let dy := e.2 - s.2
  let px := p.1 - s.1
  let py := p.2 - s.2
  let lineLenSq := dx * dx + dy * dy
  if 0 < lineLenSq then
    let t := max 0 (min 1 ((px * dx + py * dy) / lineLenSq))
    (px - t * dx) ^ 2 + (py - t * dy) ^ 2
  else
    px ^ 2 + py ^ 2

/-- The `for i in range(1, len(points) - 1)` scan of `_douglas_peucker`:
carries `(max_dist², max_idx)` and the current index, updating on a strict
increase (`dist > max_dist`, compared on squares). -/
def scanMax (s e : Pt) : List Pt → ℕ → ℚ × ℕ → ℚ × ℕ
  | [], _, acc => acc
  | p :: rest, i, acc =>
    if acc.1 < perpDistSq s e p then scanMax s e rest (i + 1) (perpDistSq s e p, i)
    else scanMax s e rest (i + 1) acc

/-- The scan applied to the interior points `points[1:-1]`, starting from
`max_dist = 0.0`, `max_idx = 0` as in the source. -/
def findMax (s e : Pt) (pts : List Pt) : ℚ × ℕ :=
  scanMax s e (pts.drop 1).dropLast 1 (0, 0)

/-- Fuelled body of `_douglas_peucker`.  The source recursion is on list
slices; fuel `pts.length` always suffices when `0 ≤ eps`
(`dpFuel_fuel_irrel`).  For `eps < 0` the Python recursion need not
terminate (e.g. on three identical points), so no total model can follow it
there; the fuel cutoff is the only deviation and is never reached for
`0 ≤ eps`.  The split condition `sqrt max_dist² > eps` is encoded exactly as
`eps < 0 ∨ eps² < max_dist²`. -/
def dpFuel : ℕ → ℚ → List Pt → List Pt
  | 0, _, pts => pts
  | fuel + 1, eps, pts =>
    if pts.length ≤ 2 then pts
    else
      let s := pts.headI
      let e := pts.getLastI
      let fm := findMax s e pts
      if eps < 0 ∨ eps ^ 2 < fm.1 then
        (dpFuel fuel eps (pts.take (fm.2 + 1))).dropLast ++ dpFuel fuel eps (pts.drop fm.2)
      else [s, e]

/-- `_douglas_peucker(points, epsilon)` from `osm_query.py`. -/
def douglasPeucker (eps : ℚ) (pts : List Pt) : List Pt :=
  dpFuel pts.length eps pts

theorem perpDistSq_nonneg (s e p : Pt) : 0 ≤ perpDistSq s e p := by
  unfold perpDistSq
  dsimp only
  split <;> positivity

theorem perpDistSq_start (s e : Pt) : perpDistSq s e s = 0 := by
  unfold perpDistSq
  dsimp only
  split <;> simp

theorem perpDistSq_end (s e : Pt) : perpDistSq s e e = 0 := by
  unfold perpDistSq
  dsimp only
  split
  · rename_i h
    rw [div_self (ne_of_gt h)]
    norm_num
  · rename_i h
    push_neg at h
    have h1 : (e.1 - s.1) * (e.1 - s.1) + (e.2 - s.2) * (e.2 - s.2) = 0 := by
      have := mul_self_nonneg (e.1 - s.1)
      have := mul_self_nonneg (e.2 - s.2)
      linarith
    have h2 : e.1 - s.1 = 0 ∧ e.2 - s.2 = 0 := by
      constructor <;> nlinarith [mul_self_nonneg (e.1 - s.1), mul_self_nonneg (e.2 - s.2)]
    rw [h2.1, h2.2]
    norm_num

theorem scanMax_fst_ge (s e : Pt) (l : List Pt) :
    ∀ (i : ℕ) (acc : ℚ × ℕ), acc.1 ≤ (scanMax s e l i acc).1 := by
  induction l with
  | nil => intro i acc; simp [scanMax]
  | cons p rest ih =>
    intro i acc
    rw [scanMax]
    split
    · rename_i h
      exact le_trans (le_of_lt h) (ih (i + 1) (perpDistSq s e p, i))
    · exact ih (i + 1) acc

theorem scanMax_no_update (s e : Pt) (l : List Pt) :
    ∀ (i : ℕ) (acc : ℚ × ℕ), (∀ p ∈ l, perpDistSq s e p ≤ acc.1) →
      scanMax s e l i acc = acc := by
  induction l with
  | nil => intro i acc _; rfl
  | cons p rest ih =>
    intro i acc h
    rw [scanMax]
    split
    · rename_i hlt
      exact absurd (h p (by simp)) (not_le.mpr hlt)
    · exact ih (i + 1) acc fun q hq => h q (by simp [hq])

theorem scanMax_spec (s e : Pt) (l : List Pt) :
    ∀ (i : ℕ) (m₀ : ℚ) (i₀ : ℕ),
      (scanMax s e l i (m₀, i₀) = (m₀, i₀) ∧ ∀ p ∈ l, perpDistSq s e p ≤ m₀) ∨
      (∃ l₁ p l₂, l = l₁ ++ p :: l₂ ∧
        (scanMax s e l i (m₀, i₀)).1 = perpDistSq s e p ∧
        (scanMax s e l i (m₀, i₀)).2 = i + l₁.length ∧
        m₀ < perpDistSq s e p ∧
        (∀ q ∈ l₁, perpDistSq s e q < perpDistSq s e p) ∧
        (∀ q ∈ l₂, perpDistSq s e q ≤ perpDistSq s e p)) := by
  induction l with
  | nil => intro i m₀ i₀; left; exact ⟨rfl, by simp⟩
  | cons p rest ih =>
    intro i m₀ i₀
    rw [scanMax]
    split
    · rename_i hlt
      -- updated: new accumulator (d p, i)
      rcases ih (i + 1) (perpDistSq s e p) i with ⟨heq, hall⟩ | ⟨l₁, q, l₂, hdec, h1, h2, h3, h4, h5⟩
      · right
        refine ⟨[], p, rest, by simp, ?_, ?_, hlt, by simp, hall⟩
        · rw [heq]
        · rw [heq]; simp
      · right
        refine ⟨p :: l₁, q, l₂, by simp [hdec], h1, ?_, lt_trans hlt h3, ?_, h5⟩
        · rw [h2]; simp; omega
        · intro r hr
          rcases List.mem_cons.mp hr with h | h
          · subst h; exact h3
          · exact h4 r h
    · rename_i hge
      push_neg at hge
      rcases ih (i + 1) m₀ i₀ with ⟨heq, hall⟩ | ⟨l₁, q, l₂, hdec, h1, h2, h3, h4, h5⟩
      · left
        refine ⟨heq, ?_⟩
        intro r hr
        rcases List.mem_cons.mp hr with h | h
        · subst h; exact hge
        · exact hall r h
      · right
        refine ⟨p :: l₁, q, l₂, by simp [hdec], h1, ?_, h3, ?_, h5⟩
        · rw [h2]; simp; omega
        · intro r hr
          rcases List.mem_cons.mp hr with h | h
          · subst h; exact lt_of_le_of_lt hge h3
          · exact h4 r h

theorem scanMax_le (s e : Pt) (l : List Pt) (i : ℕ) (m₀ : ℚ) (i₀ : ℕ) :
    ∀ p ∈ l, perpDistSq s e p ≤ (scanMax s e l i (m₀, i₀)).1 := by
  intro p hp
  rcases scanMax_spec s e l i m₀ i₀ with ⟨heq, hall⟩ | ⟨l₁, q, l₂, hdec, h1, _, _, h4, h5⟩
  · rw [heq]; exact hall p hp
  · rw [h1]
    subst hdec
    rcases List.mem_append.mp hp with h | h
    · exact le_of_lt (h4 p h)
    · rcases List.mem_cons.mp h with h | h
      · subst h; exact le_refl _
      · exact h5 p h

theorem scanMax_first_max (s e : Pt) (A : List Pt) :
    ∀ (p : Pt) (B : List Pt) (i : ℕ) (m₀ : ℚ) (i₀ : ℕ),
      (∀ q ∈ A, perpDistSq s e q < perpDistSq s e p) →
      (∀ q ∈ B, perpDistSq s e q ≤ perpDistSq s e p) →
      m₀ < perpDistSq s e p →
      scanMax s e (A ++ p :: B) i (m₀, i₀) = (perpDistSq s e p, i + A.length) := by
  induction A with
  | nil =>
    intro p B i m₀ i₀ _ hB hm
    rw [List.nil_append, scanMax, if_pos hm]
    rw [scanMax_no_update s e B (i + 1) (perpDistSq s e p, i) hB]
    simp
  | cons a A' ih =>
    intro p B i m₀ i₀ hA hB hm
    have ha : perpDistSq s e a < perpDistSq s e p := hA a (by simp)
    rw [List.cons_append, scanMax]
    split
    · rw [ih p B (i + 1) _ i (fun q hq => hA q (by simp [hq])) hB ha]
      simp; omega
    · rw [ih p B (i + 1) m₀ i₀ (fun q hq => hA q (by simp [hq])) hB hm]
      simp; omega

theorem headI_eq_of_head? {α} [Inhabited α] {l : List α} {a : α} (h : l.head? = some a) :
    l.headI = a := by
  cases l <;> simp_all

theorem getLastI_eq_of_getLast? {α} [Inhabited α] {l : List α} {a : α}
    (h : l.getLast? = some a) : l.getLastI = a := by
  rw [List.getLastI_eq_getLast?, h]

theorem list_decomp_two {α} {l : List α} {a b : α} (ha : l.head? = some a)
    (hb : l.getLast? = some b) (h2 : 2 ≤ l.length) :
    l = a :: ((l.drop 1).dropLast ++ [b]) := by
  match l, h2 with
  | x :: y :: t, _ =>
    have hx : x = a := by simpa using ha
    have hb' : (y :: t).getLast? = some b := by
      rw [← hb]
      rfl
    have hrest : (y :: t).dropLast ++ [b] = y :: t :=
      List.dropLast_append_getLast? b hb'
    rw [hx]
    show a :: y :: t = a :: ((y :: t).dropLast ++ [b])
    rw [hrest]

theorem interior_length {α} (l : List α) : ((l.drop 1).dropLast).length = l.length - 2 := by
  simp only [List.length_dropLast, List.length_drop]
  omega

theorem findMax_bounds {s e : Pt} {pts : List Pt} (h3 : 2 < pts.length)
    (hpos : 0 < (findMax s e pts).1) :
    1 ≤ (findMax s e pts).2 ∧ (findMax s e pts).2 + 2 ≤ pts.length := by
  unfold findMax at *
  rcases scanMax_spec s e ((pts.drop 1).dropLast) 1 0 0 with ⟨heq, _⟩ |
    ⟨l₁, p, l₂, hdec, _, h2, _, _, _⟩
  · rw [heq] at hpos
    exact absurd hpos (lt_irrefl 0)
  · have hlen : ((pts.drop 1).dropLast).length = pts.length - 2 := interior_length pts
    rw [hdec] at hlen
    simp only [List.length_append, List.length_cons] at hlen
    rw [h2]
    omega

theorem findMax_le {s e : Pt} {pts : List Pt} :
    ∀ p ∈ (pts.drop 1).dropLast, perpDistSq s e p ≤ (findMax s e pts).1 :=
  scanMax_le s e _ 1 0 0

theorem dpFuel_small {pts : List Pt} (h : pts.length ≤ 2) (fuel : ℕ) (eps : ℚ) :
    dpFuel fuel eps pts = pts := by
  cases fuel with
  | zero => rfl
  | succ f => rw [dpFuel, if_pos h]

theorem dpFuel_succ (fuel : ℕ) (eps : ℚ) (pts : List Pt) (h : ¬ pts.length ≤ 2) :
    dpFuel (fuel + 1) eps pts =
      if eps < 0 ∨ eps ^ 2 < (findMax pts.headI pts.getLastI pts).1 then
        (dpFuel fuel eps (pts.take ((findMax pts.headI pts.getLastI pts).2 + 1))).dropLast ++
          dpFuel fuel eps (pts.drop (findMax pts.headI pts.getLastI pts).2)
      else [pts.headI, pts.getLastI] := by
  rw [dpFuel, if_neg h]

theorem dpFuel_fuel_irrel {eps : ℚ} (heps : 0 ≤ eps) :
    ∀ (n : ℕ) (pts : List Pt), pts.length ≤ n →
      ∀ fuel₁ fuel₂, pts.length ≤ fuel₁ → pts.length ≤ fuel₂ →
        dpFuel fuel₁ eps pts = dpFuel fuel₂ eps pts := by
  intro n
  induction n with
  | zero =>
    intro pts hlen fuel₁ fuel₂ _ _
    have : pts.length ≤ 2 := by omega
    rw [dpFuel_small this, dpFuel_small this]
  | succ n ih =>
    intro pts hlen fuel₁ fuel₂ h1 h2
    by_cases hsmall : pts.length ≤ 2
    · rw [dpFuel_small hsmall, dpFuel_small hsmall]
    · obtain ⟨f₁, rfl⟩ : ∃ f, fuel₁ = f + 1 := ⟨fuel₁ - 1, by omega⟩
      obtain ⟨f₂, rfl⟩ : ∃ f, fuel₂ = f + 1 := ⟨fuel₂ - 1, by omega⟩
      rw [dpFuel_succ f₁ eps pts hsmall, dpFuel_succ f₂ eps pts hsmall]
      by_cases hsplit : eps < 0 ∨ eps ^ 2 < (findMax pts.headI pts.getLastI pts).1
      · rw [if_pos hsplit, if_pos hsplit]
        have hfmpos : 0 < (findMax pts.headI pts.getLastI pts).1 := by
          rcases hsplit with h | h
          · exact absurd h (not_lt.mpr heps)
          · exact lt_of_le_of_lt (pow_two_nonneg eps) h
        obtain ⟨hk1, hk2⟩ := findMax_bounds (by omega) hfmpos
        have htlen : (pts.take ((findMax pts.headI pts.getLastI pts).2 + 1)).length =
            (findMax pts.headI pts.getLastI pts).2 + 1 := by
          rw [List.length_take]
          omega
        have hdlen : (pts.drop (findMax pts.headI pts.getLastI pts).2).length =
            pts.length - (findMax pts.headI pts.getLastI pts).2 := List.length_drop _ _
        have e1 : dpFuel f₁ eps (pts.take ((findMax pts.headI pts.getLastI pts).2 + 1)) =
            dpFuel f₂ eps (pts.take ((findMax pts.headI pts.getLastI pts).2 + 1)) :=
          ih (pts.take ((findMax pts.headI pts.getLastI pts).2 + 1)) (by omega) f₁ f₂
            (by omega) (by omega)
        have e2 : dpFuel f₁ eps (pts.drop (findMax pts.headI pts.getLastI pts).2) =
            dpFuel f₂ eps (pts.drop (findMax pts.headI pts.getLastI pts).2) :=
          ih (pts.drop (findMax pts.headI pts.getLastI pts).2) (by omega) f₁ f₂
            (by omega) (by omega)
        rw [e1, e2]
      · rw [if_neg hsplit, if_neg hsplit]

theorem dp_eq_small {eps : ℚ} {pts : List Pt} (h : pts.length ≤ 2) :
    douglasPeucker eps pts = pts :=
  dpFuel_small h _ eps

theorem dp_eq_flat {eps : ℚ} {pts : List Pt} (heps : 0 ≤ eps) (h3 : 2 < pts.length)
    (hc : ¬ eps ^ 2 < (findMax pts.headI pts.getLastI pts).1) :
    douglasPeucker eps pts = [pts.headI, pts.getLastI] := by
  unfold douglasPeucker
  obtain ⟨n, hn⟩ : ∃ n, pts.length = n + 1 := ⟨pts.length - 1, by omega⟩
  rw [hn, dpFuel_succ n eps pts (by omega),
    if_neg (by rw [not_or]; exact ⟨not_lt.mpr heps, hc⟩)]

theorem dp_eq_split {eps : ℚ} {pts : List Pt} (heps : 0 ≤ eps) (h3 : 2 < pts.length)
    (hc : eps ^ 2 < (findMax pts.headI pts.getLastI pts).1) :
    douglasPeucker eps pts =
      (douglasPeucker eps (pts.take ((findMax pts.headI pts.getLastI pts).2 + 1))).dropLast ++
        douglasPeucker eps (pts.drop (findMax pts.headI pts.getLastI pts).2) := by
  unfold douglasPeucker
  obtain ⟨n, hn⟩ : ∃ n, pts.length = n + 1 := ⟨pts.length - 1, by omega⟩
  rw [hn, dpFuel_succ n eps pts (by omega), if_pos (Or.inr hc)]
  have hfmpos : 0 < (findMax pts.headI pts.getLastI pts).1 :=
    lt_of_le_of_lt (pow_two_nonneg eps) hc
  obtain ⟨hk1, hk2⟩ := findMax_bounds h3 hfmpos
  have e1 := dpFuel_fuel_irrel heps pts.length (pts.take ((findMax pts.headI pts.getLastI pts).2 + 1))
    (by rw [List.length_take]; omega) n (pts.take ((findMax pts.headI pts.getLastI pts).2 + 1)).length
    (by rw [List.length_take]; omega) (le_refl _)
  have e2 := dpFuel_fuel_irrel heps pts.length (pts.drop (findMax pts.headI pts.getLastI pts).2)
    (by rw [List.length_drop]; omega) n (pts.drop (findMax pts.headI pts.getLastI pts).2).length
    (by rw [List.length_drop]; omega) (le_refl _)
  rw [e1, e2]

theorem sublist_dropLast_of_concat {α} {l A : List α} {x : α} (h : List.Sublist l (A ++ [x])) :
    List.Sublist l.dropLast A := by
  rcases List.sublist_append_iff.mp h with ⟨l₁, l₂, rfl, hl₁, hl₂⟩
  rcases l₂ with _ | ⟨a, t⟩
  · exact List.Sublist.trans (List.dropLast_sublist _) (by simpa using hl₁)
  · have ha : a = x := by
      have := hl₂.subset (List.mem_cons_self a t)
      simpa using this
    have ht : t = [] := by
      cases t with
      | nil => rfl
      | cons b u =>
        have hle := hl₂.length_le
        simp only [List.length_cons, List.length_nil] at hle
        exact ((by omega : False)).elim
    subst ha
    subst ht
    rw [List.dropLast_concat]
    exact hl₁

theorem head?_take' {α} {l : List α} {m : ℕ} (h : 0 < m) : (l.take m).head? = l.head? := by
  cases l with
  | nil => simp
  | cons a t =>
    obtain ⟨m', rfl⟩ : ∃ m', m = m' + 1 := ⟨m - 1, by omega⟩
    simp [List.take_succ_cons]

theorem take_getLast' {α} {l : List α} {k : ℕ} (h : k < l.length) :
    (l.take (k + 1)).getLast? = some l[k] := by
  rw [List.take_succ, List.getElem?_eq_getElem h]
  exact List.getLast?_concat _

theorem drop_head' {α} {l : List α} {k : ℕ} (h : k < l.length) :
    (l.drop k).head? = some l[k] := by
  rw [List.drop_eq_getElem_cons h]
  rfl

theorem drop_getLast' {α} {l : List α} {k : ℕ} (h : k < l.length) :
    (l.drop k).getLast? = l.getLast? := by
  have hne : l.drop k ≠ [] := by
    intro hx
    have := congrArg List.length hx
    simp [List.length_drop] at this
    omega
  conv_rhs => rw [← List.take_append_drop k l]
  rw [List.getLast?_append]
  cases hx : (l.drop k).getLast? with
  | none => exact absurd (List.getLast?_eq_none_iff.mp hx) hne
  | some x => rfl

theorem head?_dropLast_of_two {α} {l : List α} (h : 2 ≤ l.length) :
    l.dropLast.head? = l.head? := by
  match l, h with
  | a :: b :: t, _ => rw [List.dropLast_cons₂]; rfl

theorem head?_eq_headI {α} [Inhabited α] {l : List α} (h : l ≠ []) :
    l.head? = some l.headI := by
  cases l with
  | nil => exact absurd rfl h
  | cons a t => rfl

theorem getLast?_eq_getLastI {α} [Inhabited α] {l : List α} (h : l ≠ []) :
    l.getLast? = some l.getLastI := by
  rw [List.getLastI_eq_getLast?]
  cases hx : l.getLast? with
  | none => exact absurd (List.getLast?_eq_none_iff.mp hx) h
  | some x => rfl

theorem dp_length_ge_two {eps : ℚ} (heps : 0 ≤ eps) :
    ∀ (n : ℕ) (pts : List Pt), pts.length ≤ n → 2 ≤ pts.length →
      2 ≤ (douglasPeucker eps pts).length := by
  intro n
  induction n with
  | zero => intro pts h h2; omega
  | succ n ih =>
    intro pts hlen h2
    by_cases hsmall : pts.length ≤ 2
    · rw [dp_eq_small hsmall]; omega
    · push_neg at hsmall
      by_cases hc : eps ^ 2 < (findMax pts.headI pts.getLastI pts).1
      · rw [dp_eq_split heps hsmall hc]
        have hfmpos : 0 < (findMax pts.headI pts.getLastI pts).1 :=
          lt_of_le_of_lt (pow_two_nonneg eps) hc
        obtain ⟨hk1, hk2⟩ := findMax_bounds hsmall hfmpos
        have hL := ih (pts.take ((findMax pts.headI pts.getLastI pts).2 + 1))
          (by rw [List.length_take]; omega) (by rw [List.length_take]; omega)
        have hR := ih (pts.drop (findMax pts.headI pts.getLastI pts).2)
          (by rw [List.length_drop]; omega) (by rw [List.length_drop]; omega)
        rw [List.length_append, List.length_dropLast]
        omega
      · rw [dp_eq_flat heps hsmall hc]
        simp

theorem dp_head? {eps : ℚ} (heps : 0 ≤ eps) :
    ∀ (n : ℕ) (pts : List Pt), pts.length ≤ n →
      (douglasPeucker eps pts).head? = pts.head? := by
  intro n
  induction n with
  | zero =>
    intro pts h
    rw [dp_eq_small (by omega)]
  | succ n ih =>
    intro pts hlen
    by_cases hsmall : pts.length ≤ 2
    · rw [dp_eq_small hsmall]
    · push_neg at hsmall
      by_cases hc : eps ^ 2 < (findMax pts.headI pts.getLastI pts).1
      · rw [dp_eq_split heps hsmall hc]
        have hfmpos : 0 < (findMax pts.headI pts.getLastI pts).1 :=
          lt_of_le_of_lt (pow_two_nonneg eps) hc
        obtain ⟨hk1, hk2⟩ := findMax_bounds hsmall hfmpos
        have hL := ih (pts.take ((findMax pts.headI pts.getLastI pts).2 + 1))
          (by rw [List.length_take]; omega)
        have hLlen := dp_length_ge_two heps (n + 1)
          (pts.take ((findMax pts.headI pts.getLastI pts).2 + 1))
          (by rw [List.length_take]; omega) (by rw [List.length_take]; omega)
        rw [List.head?_append, head?_dropLast_of_two hLlen, hL,
          head?_take' (by omega)]
        cases hx : pts.head? with
        | none =>
          rw [List.head?_eq_none_iff.mp hx] at hsmall
          simp at hsmall
        | some x => rfl
      · rw [dp_eq_flat heps hsmall hc]
        have : pts.headI :: ((pts.drop 1).dropLast ++ [pts.getLastI]) = pts := by
          have hne : pts ≠ [] := by
            intro hx
            rw [hx] at hsmall
            simp at hsmall
          refine (list_decomp_two ?_ ?_ (by omega)).symm
          · exact head?_eq_headI hne
          · exact getLast?_eq_getLastI hne
        conv_rhs => rw [← this]
        rfl

theorem dp_getLast? {eps : ℚ} (heps : 0 ≤ eps) :
    ∀ (n : ℕ) (pts : List Pt), pts.length ≤ n →
      (douglasPeucker eps pts).getLast? = pts.getLast? := by
  intro n
  induction n with
  | zero =>
    intro pts h
    rw [dp_eq_small (by omega)]
  | succ n ih =>
    intro pts hlen
    by_cases hsmall : pts.length ≤ 2
    · rw [dp_eq_small hsmall]
    · push_neg at hsmall
      have hne : pts ≠ [] := by
        intro hx
        rw [hx] at hsmall
        simp at hsmall
      by_cases hc : eps ^ 2 < (findMax pts.headI pts.getLastI pts).1
      · rw [dp_eq_split heps hsmall hc]
        have hfmpos : 0 < (findMax pts.headI pts.getLastI pts).1 :=
          lt_of_le_of_lt (pow_two_nonneg eps) hc
        obtain ⟨hk1, hk2⟩ := findMax_bounds hsmall hfmpos
        have hR := ih (pts.drop (findMax pts.headI pts.getLastI pts).2)
          (by rw [List.length_drop]; omega)
        rw [List.getLast?_append, hR, drop_getLast' (by omega)]
        rw [getLast?_eq_getLastI hne]
        rfl
      · rw [dp_eq_flat heps hsmall hc, getLast?_eq_getLastI hne]
        rfl

theorem dp_sublist {eps : ℚ} (heps : 0 ≤ eps) :
    ∀ (n : ℕ) (pts : List Pt), pts.length ≤ n →
      List.Sublist (douglasPeucker eps pts) pts := by
  intro n
  induction n with
  | zero =>
    intro pts h
    rw [dp_eq_small (by omega)]
  | succ n ih =>
    intro pts hlen
    by_cases hsmall : pts.length ≤ 2
    · rw [dp_eq_small hsmall]
    · push_neg at hsmall
      have hne : pts ≠ [] := by
        intro hx
        rw [hx] at hsmall
        simp at hsmall
      by_cases hc : eps ^ 2 < (findMax pts.headI pts.getLastI pts).1
      · rw [dp_eq_split heps hsmall hc]
        have hfmpos : 0 < (findMax pts.headI pts.getLastI pts).1 :=
          lt_of_le_of_lt (pow_two_nonneg eps) hc
        obtain ⟨hk1, hk2⟩ := findMax_bounds hsmall hfmpos
        have hL := ih (pts.take ((findMax pts.headI pts.getLastI pts).2 + 1))
          (by rw [List.length_take]; omega)
        have hR := ih (pts.drop (findMax pts.headI pts.getLastI pts).2)
          (by rw [List.length_drop]; omega)
        have htake : pts.take ((findMax pts.headI pts.getLastI pts).2 + 1) =
            pts.take (findMax pts.headI pts.getLastI pts).2 ++
              [pts[(findMax pts.headI pts.getLastI pts).2]] := by
          rw [List.take_succ, List.getElem?_eq_getElem (by omega)]
          rfl
        nth_rewrite 2 [htake] at hL
        have hL' := sublist_dropLast_of_concat hL
        have := List.Sublist.append hL' hR
        rw [List.take_append_drop] at this
        exact this
      · rw [dp_eq_flat heps hsmall hc]
        have hdec := list_decomp_two (head?_eq_headI hne) (getLast?_eq_getLastI hne)
          (by omega)
        conv_rhs => rw [hdec]
        exact List.Sublist.cons₂ _ (List.sublist_append_right _ _)

theorem eq_cons_tail_of_head? {α} {l : List α} {x : α} (h : l.head? = some x) :
    l = x :: l.tail := by
  cases l with
  | nil => simp at h
  | cons a t =>
    have : a = x := by simpa using h
    rw [this]
    rfl

theorem dp_within {eps : ℚ} (heps : 0 ≤ eps) :
    ∀ (n : ℕ) (pts : List Pt), pts.length ≤ n →
      ∀ p ∈ pts, p ∈ douglasPeucker eps pts ∨
        ∃ a b l₁ l₂, douglasPeucker eps pts = l₁ ++ a :: b :: l₂ ∧
          perpDistSq a b p ≤ eps ^ 2 := by
  intro n
  induction n with
  | zero =>
    intro pts h p hp
    rw [dp_eq_small (by omega)]
    exact Or.inl hp
  | succ n ih =>
    intro pts hlen p hp
    by_cases hsmall : pts.length ≤ 2
    · rw [dp_eq_small hsmall]
      exact Or.inl hp
    · push_neg at hsmall
      have hne : pts ≠ [] := by
        intro hx
        rw [hx] at hsmall
        simp at hsmall
      by_cases hc : eps ^ 2 < (findMax pts.headI pts.getLastI pts).1
      · -- split case
        rw [dp_eq_split heps hsmall hc]
        have hfmpos : 0 < (findMax pts.headI pts.getLastI pts).1 :=
          lt_of_le_of_lt (pow_two_nonneg eps) hc
        obtain ⟨hk1, hk2⟩ := findMax_bounds hsmall hfmpos
        set k := (findMax pts.headI pts.getLastI pts).2 with hk
        have hLlen := dp_length_ge_two heps (n + 1) (pts.take (k + 1))
          (by rw [List.length_take]; omega) (by rw [List.length_take]; omega)
        have hRlen := dp_length_ge_two heps (n + 1) (pts.drop k)
          (by rw [List.length_drop]; omega) (by rw [List.length_drop]; omega)
        set L := douglasPeucker eps (pts.take (k + 1)) with hLdef
        set R := douglasPeucker eps (pts.drop k) with hRdef
        have hmem : p ∈ pts.take (k + 1) ∨ p ∈ pts.drop k := by
          conv at hp => rw [← List.take_append_drop (k + 1) pts]
          rcases List.mem_append.mp hp with h | h
          · exact Or.inl h
          · refine Or.inr (List.Sublist.mem h ?_)
            have : pts.drop (k + 1) = (pts.drop k).tail := by
              rw [← List.drop_drop, List.drop_one]
            rw [this]
            exact List.tail_sublist _
        rcases hmem with hmem | hmem
        · rcases ih (pts.take (k + 1)) (by rw [List.length_take]; omega) p hmem with
            hin | ⟨a, b, l₁, l₂, hdec, hd⟩
          · -- p is in L: either in L.dropLast or is L's last element (= R's head)
            rw [← hLdef] at hin
            have hLne : L ≠ [] := by
              intro hx
              rw [hx] at hLlen
              simp at hLlen
            have hLsplit : L = L.dropLast ++ [L.getLast hLne] :=
              (List.dropLast_concat_getLast hLne).symm
            rw [hLsplit] at hin
            rcases List.mem_append.mp hin with h | h
            · exact Or.inl (List.mem_append_left R h)
            · -- p = L's last = pts[k] = R's head
              have hplast : p = L.getLast hLne := by simpa using h
              have hLl : L.getLast? = some pts[k] := by
                rw [hLdef, dp_getLast? heps (n + 1) (pts.take (k + 1))
                  (by rw [List.length_take]; omega), take_getLast' (by omega)]
              have hRh : R.head? = some pts[k] := by
                rw [hRdef, dp_head? heps (n + 1) (pts.drop k)
                  (by rw [List.length_drop]; omega), drop_head' (by omega)]
              have hpk : p = pts[k] := by
                rw [hplast]
                have := List.getLast?_eq_getLast L hLne
                rw [hLl] at this
                exact (Option.some_injective _ this.symm)
              refine Or.inl (List.mem_append_right _ ?_)
              rw [eq_cons_tail_of_head? hRh, hpk]
              exact List.mem_cons_self _ _
          · -- a pair of consecutive output points of L bounds p
            rw [← hLdef] at hdec
            rcases List.eq_nil_or_concat l₂ with rfl | ⟨l₂', z, rfl⟩
            · -- the pair is L's last two points; b = pts[k] = R's head
              have hb : L.getLast? = some b := by
                rw [hdec]
                have : l₁ ++ a :: b :: [] = (l₁ ++ [a]) ++ [b] := by simp
                rw [this, List.getLast?_concat]
              have hRh : R.head? = some pts[k] := by
                rw [hRdef, dp_head? heps (n + 1) (pts.drop k)
                  (by rw [List.length_drop]; omega), drop_head' (by omega)]
              have hLl : L.getLast? = some pts[k] := by
                rw [hLdef, dp_getLast? heps (n + 1) (pts.take (k + 1))
                  (by rw [List.length_take]; omega), take_getLast' (by omega)]
              have hbk : b = pts[k] := by
                rw [hb] at hLl
                exact Option.some_injective _ hLl
              refine Or.inr ⟨a, b, l₁, R.tail, ?_, hd⟩
              have hLdl : L.dropLast = l₁ ++ [a] := by
                rw [hdec]
                have : l₁ ++ a :: b :: [] = (l₁ ++ [a]) ++ [b] := by simp
                rw [this, List.dropLast_concat]
              rw [hLdl]
              conv_lhs => rw [eq_cons_tail_of_head? hRh]
              rw [hbk]
              simp
            · -- the pair lies strictly inside L's dropLast
              refine Or.inr ⟨a, b, l₁, l₂' ++ R, ?_, hd⟩
              have hdl : L.dropLast = l₁ ++ a :: b :: l₂' := by
                rw [hdec, List.concat_eq_append]
                have h1 : l₁ ++ a :: b :: (l₂' ++ [z]) = (l₁ ++ (a :: b :: l₂')) ++ [z] := by
                  simp
                rw [h1, List.dropLast_concat]
              rw [hdl]
              simp
        · rcases ih (pts.drop k) (by rw [List.length_drop]; omega) p hmem with
            hin | ⟨a, b, l₁, l₂, hdec, hd⟩
          · rw [← hRdef] at hin
            exact Or.inl (List.mem_append_right _ hin)
          · rw [← hRdef] at hdec
            refine Or.inr ⟨a, b, L.dropLast ++ l₁, l₂, ?_, hd⟩
            rw [hdec]
            simp
      · -- flat case: every interior point is within tolerance of the single chord
        rw [dp_eq_flat heps hsmall hc]
        push_neg at hc
        have hdec := list_decomp_two (head?_eq_headI hne) (getLast?_eq_getLastI hne)
          (by omega : 2 ≤ pts.length)
        rw [hdec] at hp
        rcases List.mem_cons.mp hp with h | h
        · exact Or.inl (by rw [h]; simp)
        · rcases List.mem_append.mp h with h | h
          · refine Or.inr ⟨pts.headI, pts.getLastI, [], [], rfl, ?_⟩
            exact le_trans (findMax_le p h) hc
          · have : p = pts.getLastI := by simpa using h
            exact Or.inl (by rw [this]; simp)

theorem take_after_cons {α} (s p : α) (l₁ X : List α) :
    (s :: (l₁ ++ p :: X)).take (l₁.length + 2) = s :: (l₁ ++ [p]) := by
  rw [List.take_succ_cons]
  congr 1
  rw [List.take_append_eq_append_take, List.take_of_length_le (by omega)]
  congr 1
  rw [Nat.add_sub_cancel_left]
  rfl

theorem drop_after_cons {α} (s : α) (l₁ X : List α) :
    (s :: (l₁ ++ X)).drop (l₁.length + 1) = X := by
  rw [List.drop_succ_cons]
  exact List.drop_left _ _

/-- Idempotence of the simplifier: for a nonnegative tolerance, simplifying an
already-simplified polyline with the same tolerance returns it unchanged. -/
theorem dp_idem {eps : ℚ} (heps : 0 ≤ eps) :
    ∀ (n : ℕ) (pts : List Pt), pts.length ≤ n →
      douglasPeucker eps (douglasPeucker eps pts) = douglasPeucker eps pts := by
  intro n
  induction n with
  | zero =>
    intro pts h
    have h0 : pts.length ≤ 2 := by omega
    rw [dp_eq_small h0, dp_eq_small h0]
  | succ n ih =>
    intro pts hlen
    by_cases hsmall : pts.length ≤ 2
    · rw [dp_eq_small hsmall, dp_eq_small hsmall]
    · push_neg at hsmall
      have hne : pts ≠ [] := by
        intro hx
        rw [hx] at hsmall
        simp at hsmall
      by_cases hc : eps ^ 2 < (findMax pts.headI pts.getLastI pts).1
      · -- split case
        rw [dp_eq_split heps hsmall hc]
        have hfmpos : 0 < (findMax pts.headI pts.getLastI pts).1 :=
          lt_of_le_of_lt (pow_two_nonneg eps) hc
        obtain ⟨hk1, hk2⟩ := findMax_bounds hsmall hfmpos
        -- extract the first-maximum decomposition of the interior
        rcases scanMax_spec pts.headI pts.getLastI ((pts.drop 1).dropLast) 1 0 0 with
          ⟨heq, _⟩ | ⟨l₁, pm, l₂, hI, h1, h2, h3, h4, h5⟩
        · rw [show findMax pts.headI pts.getLastI pts =
              scanMax pts.headI pts.getLastI ((pts.drop 1).dropLast) 1 (0, 0) from rfl,
            heq] at hfmpos
          exact absurd hfmpos (lt_irrefl 0)
        · have hfm1 : (findMax pts.headI pts.getLastI pts).1 =
              perpDistSq pts.headI pts.getLastI pm := h1
          have hfm2 : (findMax pts.headI pts.getLastI pts).2 = 1 + l₁.length := h2
          have hdecomp : pts = pts.headI :: (l₁ ++ pm :: (l₂ ++ [pts.getLastI])) := by
            have := list_decomp_two (head?_eq_headI hne) (getLast?_eq_getLastI hne)
              (by omega : 2 ≤ pts.length)
            rw [hI] at this
            simpa using this
          have htake : pts.take ((findMax pts.headI pts.getLastI pts).2 + 1) =
              pts.headI :: (l₁ ++ [pm]) := by
            rw [hfm2, show 1 + l₁.length + 1 = l₁.length + 2 by omega]
            conv_lhs => rw [hdecomp]
            exact take_after_cons _ _ _ _
          have hdrop : pts.drop (findMax pts.headI pts.getLastI pts).2 =
              pm :: (l₂ ++ [pts.getLastI]) := by
            rw [hfm2, show 1 + l₁.length = l₁.length + 1 by omega]
            conv_lhs => rw [hdecomp]
            exact drop_after_cons _ _ _
          set L := douglasPeucker eps
            (pts.take ((findMax pts.headI pts.getLastI pts).2 + 1)) with hLdef
          set R := douglasPeucker eps
            (pts.drop (findMax pts.headI pts.getLastI pts).2) with hRdef
          have hLlen : 2 ≤ L.length := by
            rw [hLdef]
            exact dp_length_ge_two heps (n + 1) _ (by rw [List.length_take]; omega)
              (by rw [List.length_take]; omega)
          have hRlen : 2 ≤ R.length := by
            rw [hRdef]
            exact dp_length_ge_two heps (n + 1) _ (by rw [List.length_drop]; omega)
              (by rw [List.length_drop]; omega)
          have hLh : L.head? = some pts.headI := by
            rw [hLdef, dp_head? heps (n + 1) _ (by rw [List.length_take]; omega), htake]
            rfl
          have hLl : L.getLast? = some pm := by
            rw [hLdef, dp_getLast? heps (n + 1) _ (by rw [List.length_take]; omega), htake]
            rw [show pts.headI :: (l₁ ++ [pm]) = (pts.headI :: l₁) ++ [pm] by simp]
            exact List.getLast?_concat _
          have hRh : R.head? = some pm := by
            rw [hRdef, dp_head? heps (n + 1) _ (by rw [List.length_drop]; omega), hdrop]
            rfl
          have hRl : R.getLast? = some pts.getLastI := by
            rw [hRdef, dp_getLast? heps (n + 1) _ (by rw [List.length_drop]; omega), hdrop]
            rw [show pm :: (l₂ ++ [pts.getLastI]) = (pm :: l₂) ++ [pts.getLastI] by simp]
            exact List.getLast?_concat _
          set A := (L.drop 1).dropLast with hAdef
          set B := (R.drop 1).dropLast with hBdef
          have hLshape : L = pts.headI :: (A ++ [pm]) := list_decomp_two hLh hLl hLlen
          have hRshape : R = pm :: (B ++ [pts.getLastI]) := list_decomp_two hRh hRl hRlen
          have hLdl : L.dropLast = pts.headI :: A := by
            conv_lhs => rw [hLshape]
            rw [show pts.headI :: (A ++ [pm]) = (pts.headI :: A) ++ [pm] by simp,
              List.dropLast_concat]
          have hres : L.dropLast ++ R = pts.headI :: (A ++ pm :: (B ++ [pts.getLastI])) := by
            rw [hLdl]
            conv_lhs => rw [hRshape]
            simp
          -- strict bound on A, weak bound on B
          have hAbound : ∀ q ∈ A, perpDistSq pts.headI pts.getLastI q <
              perpDistSq pts.headI pts.getLastI pm := by
            intro q hq
            have hLsub : List.Sublist L
                (pts.take ((findMax pts.headI pts.getLastI pts).2 + 1)) := by
              rw [hLdef]
              exact dp_sublist heps (n + 1) _ (by rw [List.length_take]; omega)
            rw [htake, show pts.headI :: (l₁ ++ [pm]) = (pts.headI :: l₁) ++ [pm] by simp]
              at hLsub
            have hsubd := sublist_dropLast_of_concat hLsub
            have hqL : q ∈ L.dropLast := by
              rw [hLdl]
              exact List.mem_cons_of_mem _ hq
            have hmem := hsubd.subset hqL
            rcases List.mem_cons.mp hmem with rfl | hmem
            · rw [perpDistSq_start]
              exact h3
            · exact h4 q hmem
          have hBbound : ∀ q ∈ B, perpDistSq pts.headI pts.getLastI q ≤
              perpDistSq pts.headI pts.getLastI pm := by
            intro q hq
            have hRsub : List.Sublist R
                (pts.drop (findMax pts.headI pts.getLastI pts).2) := by
              rw [hRdef]
              exact dp_sublist heps (n + 1) _ (by rw [List.length_drop]; omega)
            rw [hdrop] at hRsub
            have hqR : q ∈ R := by
              have h1' : q ∈ R.drop 1 := (List.dropLast_sublist _).subset hq
              exact (List.drop_sublist _ _).subset h1'
            have hmem := hRsub.subset hqR
            rcases List.mem_cons.mp hmem with rfl | hmem
            · exact le_refl _
            · rcases List.mem_append.mp hmem with hmem | hmem
              · exact h5 q hmem
              · have : q = pts.getLastI := by simpa using hmem
                rw [this, perpDistSq_end]
                exact le_of_lt h3
          -- the second pass sees the same chord and splits at pm again
          have hreslen : 2 < (L.dropLast ++ R).length := by
            rw [List.length_append, List.length_dropLast]
            omega
          have hresh : (L.dropLast ++ R).headI = pts.headI := by
            rw [hres]
            rfl
          have hresl : (L.dropLast ++ R).getLastI = pts.getLastI := by
            apply getLastI_eq_of_getLast?
            rw [hres, show pts.headI :: (A ++ pm :: (B ++ [pts.getLastI])) =
              (pts.headI :: (A ++ pm :: B)) ++ [pts.getLastI] by simp]
            exact List.getLast?_concat _
          have hresfm : findMax pts.headI pts.getLastI (L.dropLast ++ R) =
              (perpDistSq pts.headI pts.getLastI pm, 1 + A.length) := by
            unfold findMax
            have hint : ((L.dropLast ++ R).drop 1).dropLast = A ++ pm :: B := by
              rw [hres, List.drop_succ_cons, List.drop_zero,
                show A ++ pm :: (B ++ [pts.getLastI]) = (A ++ pm :: B) ++ [pts.getLastI]
                  by simp, List.dropLast_concat]
            rw [hint]
            exact scanMax_first_max pts.headI pts.getLastI A pm B 1 0 0 hAbound hBbound h3
          have hsplit2 : eps ^ 2 <
              (findMax (L.dropLast ++ R).headI (L.dropLast ++ R).getLastI
                (L.dropLast ++ R)).1 := by
            rw [hresh, hresl, hresfm]
            rw [hfm1] at hc
            exact hc
          rw [dp_eq_split heps hreslen hsplit2]
          have hk2' : (findMax (L.dropLast ++ R).headI (L.dropLast ++ R).getLastI
              (L.dropLast ++ R)).2 = 1 + A.length := by
            rw [hresh, hresl, hresfm]
          have htake2 : (L.dropLast ++ R).take
              ((findMax (L.dropLast ++ R).headI (L.dropLast ++ R).getLastI
                (L.dropLast ++ R)).2 + 1) = L := by
            rw [hk2', show 1 + A.length + 1 = A.length + 2 by omega]
            conv_lhs => rw [hres]
            rw [take_after_cons]
            exact hLshape.symm
          have hdrop2 : (L.dropLast ++ R).drop
              ((findMax (L.dropLast ++ R).headI (L.dropLast ++ R).getLastI
                (L.dropLast ++ R)).2) = R := by
            rw [hk2', show 1 + A.length = A.length + 1 by omega]
            conv_lhs => rw [hres]
            rw [drop_after_cons]
            exact hRshape.symm
          rw [htake2, hdrop2]
          have hLidem : douglasPeucker eps L = L := by
            rw [hLdef]
            exact ih _ (by rw [List.length_take]; omega)
          have hRidem : douglasPeucker eps R = R := by
            rw [hRdef]
            exact ih _ (by rw [List.length_drop]; omega)
          rw [hLidem, hRidem]
      · -- flat case: output has exactly two points
        rw [dp_eq_flat heps hsmall hc]
        exact dp_eq_small (by simp)

/-!  ## Ring assembler (`_assemble_multipolygon` in `osm_query.py`)  -/

/-- One entry of the `segments` list built at the top of
`_assemble_multipolygon`: start/end node ids and the projected points. -/
structure Seg where
  start_node : ℤ
  end_node : ℤ
  points : List Pt
deriving Inhabited, DecidableEq, Repr

/-- The segment-building loop of `_assemble_multipolygon`: ways with fewer
than 2 node ids are skipped; node ids missing from the node table are
skipped; the result is kept only when at least 2 points survive.  The
projection `latlon_to_xy(·, ·, center_lat, center_lon)` is abstracted as the
parameter `proj` (the source fixes it to the equirectangular projection at
the query center; see `latlon_to_xy`). -/
def segmentsOf (proj : ℚ → ℚ → Pt) (waySegments : List (ℤ × List ℤ))
    (nodes : ℤ → Option (ℚ × ℚ)) : List Seg :=
  waySegments.filterMap fun wn =>
    if wn.2.length < 2 then none
    else
      let pts := wn.2.filterMap fun nid => (nodes nid).map fun ll => proj ll.1 ll.2
      if 2 ≤ pts.length then some ⟨wn.2.headI, wn.2.getLastI, pts⟩ else none

/-- The inner `for i, seg in enumerate(segments)` scan of the extension loop:
returns the first unused segment whose start node (forward) or end node
(backward) matches the ring's trailing node. -/
def findConnAux (used : List ℕ) (cur : ℤ) : List Seg → ℕ → Option (ℕ × Seg × Bool)
  | [], _ => none
  | sg :: rest, i =>
    if i ∈ used then findConnAux used cur rest (i + 1)
    else if sg.start_node = cur then some (i, sg, true)
    else if sg.end_node = cur then some (i, sg, false)
    else findConnAux used cur rest (i + 1)

def findConn (segs : List Seg) (used : List ℕ) (cur : ℤ) : Option (ℕ × Seg × Bool) :=
  findConnAux used cur segs 0

/-- The `for _ in range(max_iterations)` extension loop of
`_assemble_multipolygon`: state is (ring points, trailing node, used set).
A found forward segment contributes `points[1:]`, a backward one
`reversed(points[:-1])`; the loop stops when nothing connects or when the
trailing node equals the ring's start node (checked only after an append,
exactly as in the source). -/
def extendLoop (segs : List Seg) (startNode : ℤ) :
    ℕ → List Pt → ℤ → List ℕ → List Pt × ℤ × List ℕ
  | 0, pts, cur, used => (pts, cur, used)
  | fuel + 1, pts, cur, used =>
    match findConn segs used cur with
    | none => (pts, cur, used)
    | some (i, sg, fwd) =>
      let pts' := if fwd then pts ++ sg.points.tail else pts ++ sg.points.dropLast.reverse
      let cur' := if fwd then sg.end_node else sg.start_node
      if cur' = startNode then (pts', cur', i :: used)
      else extendLoop segs startNode fuel pts' cur' (i :: used)

/-- The seed search `for i, seg in enumerate(segments): if i not in used`. -/
def firstUnused (n : ℕ) (used : List ℕ) : Option ℕ :=
  (List.range n).find? fun i => !(used.contains i)

/-- The outer `while len(used) < len(segments)` loop of
`_assemble_multipolygon`.  Fuel `segs.length` always suffices because every
pass marks its seed segment as used (`assembleLoop_fuel_irrel`). -/
def assembleLoop (segs : List Seg) (eps : ℚ) : ℕ → List ℕ → List (List Pt × Bool)
  | 0, _ => []
  | fuel + 1, used =>
    match firstUnused segs.length used with
    | none => []
    | some i =>
      let sg := segs.getI i
      let st := extendLoop segs sg.start_node (2 * segs.length) sg.points sg.end_node
        (i :: used)
      let isClosed := decide (st.2.1 = sg.start_node) && decide (3 ≤ st.1.length)
      let simplified := douglasPeucker eps st.1
      (if 3 ≤ simplified.length then [(simplified, isClosed)] else []) ++
        assembleLoop segs eps fuel st.2.2

/-- `_assemble_multipolygon(way_segments, center_lat, center_lon, nodes,
simplify_epsilon)` from `osm_query.py`, with the projection abstracted as
`proj`.  Returns the list of (simplified points, closed) pairs. -/
def assembleMultipolygon (proj : ℚ → ℚ → Pt) (waySegments : List (ℤ × List ℤ))
    (nodes : ℤ → Option (ℚ × ℚ)) (eps : ℚ) : List (List Pt × Bool) :=
  let segs := segmentsOf proj waySegments nodes
  assembleLoop segs eps segs.length []

/-- Specification-side view of the assembly loop (from the spec's wording):
the raw rings, each as (pre-simplification points, trailing node, start
node), before classification and simplification. -/
def rawRingsLoop (segs : List Seg) : ℕ → List ℕ → List (List Pt × ℤ × ℤ)
  | 0, _ => []
  | fuel + 1, used =>
    match firstUnused segs.length used with
    | none => []
    | some i =>
      let sg := segs.getI i
      let st := extendLoop segs sg.start_node (2 * segs.length) sg.points sg.end_node
        (i :: used)
      (st.1, st.2.1, sg.start_node) :: rawRingsLoop segs fuel st.2.2

/-- Specification-side ring post-processing (from the spec's wording):
classify closed = (trailing node = start node ∧ at least 3 points before
simplification), simplify with the tolerance, keep only rings whose
simplified point count is at least 3. -/
def ringFinish (eps : ℚ) (r : List Pt × ℤ × ℤ) : Option (List Pt × Bool) :=
  let simplified := douglasPeucker eps r.1
  if 3 ≤ simplified.length then
    some (simplified, decide (r.2.1 = r.2.2) && decide (3 ≤ r.1.length))
  else none

theorem assembleLoop_eq_rawRings (segs : List Seg) (eps : ℚ) :
    ∀ (fuel : ℕ) (used : List ℕ),
      assembleLoop segs eps fuel used =
        (rawRingsLoop segs fuel used).filterMap (ringFinish eps) := by
  intro fuel
  induction fuel with
  | zero => intro used; rfl
  | succ fuel ih =>
    intro used
    rw [assembleLoop, rawRingsLoop]
    cases firstUnused segs.length used with
    | none => rfl
    | some i =>
      dsimp only
      rw [List.filterMap_cons, ih]
      unfold ringFinish
      dsimp only
      split
      · rfl
      · rfl

theorem firstUnused_some {n : ℕ} {used : List ℕ} {i : ℕ}
    (h : firstUnused n used = some i) : i < n ∧ i ∉ used := by
  unfold firstUnused at h
  have h1 := List.find?_some h
  have h2 := List.mem_of_find?_eq_some h
  constructor
  · simpa using h2
  · simpa using h1

/-- Number of segment indices not yet marked used. -/
def unusedCount (n : ℕ) (used : List ℕ) : ℕ :=
  ((List.range n).filter fun i => !(used.contains i)).length

theorem not_contains_iff {l : List ℕ} {a : ℕ} : (!(l.contains a)) = true ↔ a ∉ l := by
  simp

theorem firstUnused_none_iff {n : ℕ} {used : List ℕ} :
    firstUnused n used = none ↔ unusedCount n used = 0 := by
  unfold firstUnused unusedCount
  rw [List.find?_eq_none, List.length_eq_zero, List.filter_eq_nil_iff]

theorem unusedCount_lt {n : ℕ} {used used' : List ℕ} {i : ℕ}
    (hsub : ∀ j ∈ used, j ∈ used') (hi : i ∈ used') (hin : i < n) (hiu : i ∉ used) :
    unusedCount n used' < unusedCount n used := by
  unfold unusedCount
  have hmono : List.Sublist ((List.range n).filter fun j => !(used'.contains j))
      ((List.range n).filter fun j => !(used.contains j)) := by
    apply List.monotone_filter_right
    intro j hj
    have hj' : j ∉ used' := not_contains_iff.mp hj
    exact not_contains_iff.mpr fun hmem => hj' (hsub j hmem)
  have hne : ((List.range n).filter fun j => !(used'.contains j)) ≠
      ((List.range n).filter fun j => !(used.contains j)) := by
    intro he
    have hmem : i ∈ (List.range n).filter fun j => !(used.contains j) := by
      rw [List.mem_filter]
      exact ⟨List.mem_range.mpr hin, not_contains_iff.mpr hiu⟩
    rw [← he, List.mem_filter] at hmem
    exact (not_contains_iff.mp hmem.2) hi
  have hle := hmono.length_le
  rcases lt_or_eq_of_le hle with h | h
  · exact h
  · exact absurd (hmono.eq_of_length h) hne

theorem extendLoop_used_mono (segs : List Seg) (startNode : ℤ) :
    ∀ (fuel : ℕ) (pts : List Pt) (cur : ℤ) (used : List ℕ),
      ∀ j ∈ used, j ∈ (extendLoop segs startNode fuel pts cur used).2.2 := by
  intro fuel
  induction fuel with
  | zero => intro pts cur used j hj; exact hj
  | succ fuel ih =>
    intro pts cur used j hj
    rw [extendLoop]
    cases hfc : findConn segs used cur with
    | none => exact hj
    | some t =>
      obtain ⟨i, sg, fwd⟩ := t
      dsimp only
      split <;> split
      all_goals
        first
        | exact List.mem_cons_of_mem _ hj
        | exact ih _ _ _ j (List.mem_cons_of_mem _ hj)

theorem assembleLoop_of_none {segs : List Seg} {eps : ℚ} {used : List ℕ}
    (h : firstUnused segs.length used = none) :
    ∀ fuel, assembleLoop segs eps fuel used = [] := by
  intro fuel
  cases fuel with
  | zero => rfl
  | succ fuel =>
    rw [assembleLoop, h]

theorem assembleLoop_fuel_irrel (segs : List Seg) (eps : ℚ) :
    ∀ (m : ℕ) (used : List ℕ) (fuel₁ fuel₂ : ℕ),
      unusedCount segs.length used ≤ m →
      unusedCount segs.length used ≤ fuel₁ →
      unusedCount segs.length used ≤ fuel₂ →
      assembleLoop segs eps fuel₁ used = assembleLoop segs eps fuel₂ used := by
  intro m
  induction m with
  | zero =>
    intro used fuel₁ fuel₂ hm _ _
    have h0 : firstUnused segs.length used = none :=
      firstUnused_none_iff.mpr (by omega)
    rw [assembleLoop_of_none h0, assembleLoop_of_none h0]
  | succ m ih =>
    intro used fuel₁ fuel₂ hm h1 h2
    by_cases hz : unusedCount segs.length used = 0
    · have h0 : firstUnused segs.length used = none := firstUnused_none_iff.mpr hz
      rw [assembleLoop_of_none h0, assembleLoop_of_none h0]
    · cases hfu : firstUnused segs.length used with
      | none => exact absurd (firstUnused_none_iff.mp hfu) hz
      | some i =>
        obtain ⟨hin, hiu⟩ := firstUnused_some hfu
        obtain ⟨f₁, rfl⟩ : ∃ f, fuel₁ = f + 1 := ⟨fuel₁ - 1, by omega⟩
        obtain ⟨f₂, rfl⟩ : ∃ f, fuel₂ = f + 1 := ⟨fuel₂ - 1, by omega⟩
        rw [assembleLoop, assembleLoop, hfu]
        dsimp only
        have hused' : ∀ j ∈ (i :: used),
            j ∈ (extendLoop segs (segs.getI i).start_node (2 * segs.length)
              (segs.getI i).points (segs.getI i).end_node (i :: used)).2.2 :=
          extendLoop_used_mono segs _ _ _ _ _
        have hcnt : unusedCount segs.length
            (extendLoop segs (segs.getI i).start_node (2 * segs.length)
              (segs.getI i).points (segs.getI i).end_node (i :: used)).2.2 <
            unusedCount segs.length used := by
          apply unusedCount_lt (fun j hj => hused' j (List.mem_cons_of_mem _ hj))
            (hused' i (List.mem_cons_self _ _)) hin hiu
        congr 1
        exact ih _ f₁ f₂ (by omega) (by omega) (by omega)

/-!  ## Decimal formatting of ids (Python `str` inside the f-strings)  -/

/-- One decimal digit as a character. -/
def digitChar (d : ℕ) : Char :=
  match d with
  | 0 => '0'
  | 1 => '1'
  | 2 => '2'
  | 3 => '3'
  | 4 => '4'
  | 5 => '5'
  | 6 => '6'
  | 7 => '7'
  | 8 => '8'
  | _ => '9'

/-- Python `str` of a natural number: decimal digits, most significant first. -/
def natStr (n : ℕ) : String :=
  if n = 0 then "0" else ⟨((Nat.digits 10 n).map digitChar).reverse⟩

/-- Python `str` of an integer: minus sign for negatives. -/
def intStr (i : ℤ) : String :=
  if i < 0 then "-" ++ natStr i.natAbs else natStr i.toNat

theorem digitChar_val {d : ℕ} (hd : d < 10) : (digitChar d).toNat = 48 + d := by
  interval_cases d <;> rfl

theorem digitChar_ne_dash (d : ℕ) : digitChar d ≠ '-' := by
  unfold digitChar
  split <;> decide

theorem digitChar_inj {d e : ℕ} (hd : d < 10) (he : e < 10)
    (h : digitChar d = digitChar e) : d = e := by
  have := congrArg Char.toNat h
  rw [digitChar_val hd, digitChar_val he] at this
  omega

theorem map_digitChar_inj :
    ∀ {l₁ l₂ : List ℕ}, (∀ d ∈ l₁, d < 10) → (∀ d ∈ l₂, d < 10) →
      l₁.map digitChar = l₂.map digitChar → l₁ = l₂ := by
  intro l₁
  induction l₁ with
  | nil =>
    intro l₂ _ _ h
    cases l₂ with
    | nil => rfl
    | cons b t => simp at h
  | cons a t ih =>
    intro l₂ h₁ h₂ h
    cases l₂ with
    | nil => simp at h
    | cons b t' =>
      simp only [List.map_cons, List.cons.injEq] at h
      have hab : a = b := digitChar_inj (h₁ a (by simp)) (h₂ b (by simp)) h.1
      have := ih (fun d hd => h₁ d (by simp [hd])) (fun d hd => h₂ d (by simp [hd])) h.2
      rw [hab, this]

theorem natStr_inj {m n : ℕ} (h : natStr m = natStr n) : m = n := by
  have hdata := congrArg String.data h
  unfold natStr at hdata
  by_cases hm : m = 0 <;> by_cases hn : n = 0
  · rw [hm, hn]
  · rw [if_pos hm, if_neg hn] at hdata
    have hd' : ['0'] = (List.map digitChar (Nat.digits 10 n)).reverse := hdata
    have hne := (@Nat.digits_ne_nil_iff_ne_zero 10 _).mpr hn
    exfalso
    rcases List.eq_nil_or_concat (Nat.digits 10 n) with hnil | ⟨L, d, hLd⟩
    · exact hne hnil
    · rw [hLd] at hd'
      simp only [List.concat_eq_append, List.map_append, List.reverse_append,
        List.map_cons, List.map_nil, List.reverse_cons, List.reverse_nil,
        List.nil_append, List.cons_append, List.cons.injEq] at hd'
      have hd10 : d < 10 := Nat.digits_lt_base (by norm_num)
        (by rw [hLd, List.concat_eq_append]; exact List.mem_concat_self L d)
      have hd0 : (0 : ℕ) = d := @digitChar_inj 0 d (by norm_num) hd10 hd'.1
      have hL : L = [] := by
        have := hd'.2.symm
        rw [List.reverse_eq_nil_iff, List.map_eq_nil_iff] at this
        exact this
      have : n = 0 := by
        have hof := Nat.ofDigits_digits 10 n
        rw [hLd, hL, ← hd0] at hof
        simpa using hof.symm
      exact hn this
  · rw [if_neg hm, if_pos hn] at hdata
    have hd' : (List.map digitChar (Nat.digits 10 m)).reverse = ['0'] := hdata
    have hne := (@Nat.digits_ne_nil_iff_ne_zero 10 _).mpr hm
    exfalso
    rcases List.eq_nil_or_concat (Nat.digits 10 m) with hnil | ⟨L, d, hLd⟩
    · exact hne hnil
    · rw [hLd] at hd'
      simp only [List.concat_eq_append, List.map_append, List.reverse_append,
        List.map_cons, List.map_nil, List.reverse_cons, List.reverse_nil,
        List.nil_append, List.cons_append, List.cons.injEq] at hd'
      have hd10 : d < 10 := Nat.digits_lt_base (by norm_num)
        (by rw [hLd, List.concat_eq_append]; exact List.mem_concat_self L d)
      have hd0 : d = 0 := @digitChar_inj d 0 hd10 (by norm_num) hd'.1
      have hL : L = [] := by
        have := hd'.2
        rw [List.reverse_eq_nil_iff, List.map_eq_nil_iff] at this
        exact this
      have : m = 0 := by
        have hof := Nat.ofDigits_digits 10 m
        rw [hLd, hL, hd0] at hof
        simpa using hof.symm
      exact hm this
  · rw [if_neg hm, if_neg hn] at hdata
    have hd' : (List.map digitChar (Nat.digits 10 m)).reverse =
        (List.map digitChar (Nat.digits 10 n)).reverse := hdata
    have := List.reverse_injective hd'
    have hmaps := map_digitChar_inj
      (fun d hd => Nat.digits_lt_base (by norm_num) hd)
      (fun d hd => Nat.digits_lt_base (by norm_num) hd) this
    exact Nat.digits_inj_iff.mp hmaps

/-!  ## Feature extractor (`query_water_features` in `osm_query.py`, after the
HTTP fetch: the parsed Overpass elements are the input)  -/

/-- A relation member: `{"type": ..., "ref": ..., "role": ...}`.  `role` is
`none` when the key is absent (Python's `member.get("role")`). -/
structure Member where
  type : String
  ref : ℤ
  role : Option String
deriving DecidableEq, Repr

/-- A parsed Overpass element (node / way / relation). -/
inductive Element
  | node (id : ℤ) (lat lon : ℚ)
  | way (id : ℤ) (nodes : List ℤ) (tags : List (String × String))
  | relation (id : ℤ) (tags : List (String × String)) (members : List Member)
deriving DecidableEq, Repr

/-- Tag dictionary lookup (`tags.get(key)`); tag keys are unique in OSM, the
model takes the first match. -/
def lookupTag (tags : List (String × String)) (k : String) : Option String :=
  (tags.find? fun t => t.1 == k).map (·.2)

/-- The node table (`nodes[el["id"]] = (lat, lon)`): dict insertion with
last-write-wins lookup. -/
def nodesOf (els : List Element) (nid : ℤ) : Option (ℚ × ℚ) :=
  els.foldl
    (fun acc el =>
      match el with
      | .node i la lo => if i = nid then some (la, lo) else acc
      | _ => acc)
    none

/-- Way-table row: `{'nodes': ..., 'tags': ...}`. -/
structure WayData where
  nodes : List ℤ
  tags : List (String × String)
deriving Inhabited, DecidableEq, Repr

/-- Python-dict insertion: an existing key keeps its position and gets the
new value, a fresh key is appended. -/
def insertWay : List (ℤ × WayData) → ℤ → WayData → List (ℤ × WayData)
  | [], k, v => [(k, v)]
  | (k', v') :: rest, k, v =>
    if k' = k then (k, v) :: rest else (k', v') :: insertWay rest k v

/-- The way table `way_data` in `items()` (= insertion) order. -/
def wayItems (els : List Element) : List (ℤ × WayData) :=
  els.foldl
    (fun acc el =>
      match el with
      | .way wid ns tags => insertWay acc wid ⟨ns, tags⟩
      | _ => acc)
    []

/-- `way_data[way_id]` lookup. -/
def wayLookup (els : List Element) (wid : ℤ) : Option WayData :=
  ((wayItems els).find? fun kv => kv.1 == wid).map (·.2)

/-- The member filter `member["type"] == "way" and member.get("role") in
("outer", "")`. -/
def memberOuter (m : Member) : Bool :=
  m.type == "way" && (m.role == some "outer" || m.role == some "")

/-- `relation_way_ids`: every way id consumed by any relation's outer/empty
role member (recorded before the `way_id in way_data` check, as in the
source; the set is only read by the standalone-way pass, which runs after
all relations). -/
def relationWayIds (els : List Element) : List ℤ :=
  els.flatMap fun el =>
    match el with
    | .relation _ _ members =>
      members.filterMap fun m => if memberOuter m then some m.ref else none
    | _ => []

/-- The bounding filter `sqrt(x² + y²) <= radius_m * 1.2` for one point,
encoded sqrt-free and exactly: `sqrt v ≤ c ↔ 0 ≤ c ∧ v ≤ c²` (v is a sum of
squares, hence nonnegative). -/
def pointInRange (radius : ℚ) (p : Pt) : Bool :=
  decide (0 ≤ radius * (6 / 5)) && decide (p.1 ^ 2 + p.2 ^ 2 ≤ (radius * (6 / 5)) ^ 2)

/-- `any(... for p in points)`. -/
def inRange (radius : ℚ) (pts : List Pt) : Bool :=
  pts.any (pointInRange radius)

/-- `{"x": round(p[0], 1), "y": round(p[1], 1)}`. -/
def roundPt (p : Pt) : Pt := (pyRound1 p.1, pyRound1 p.2)

/-- An output feature dict `{id, name, points, closed}`. -/
structure Feature where
  id : String
  name : String
  points : List Pt
  closed : Bool
deriving DecidableEq, Repr

/-- The relations pass of `query_water_features` (lines 191-225). -/
def relationFeatures (proj : ℚ → ℚ → Pt) (radius eps : ℚ) (els : List Element) :
    List Feature :=
  els.flatMap fun el =>
    match el with
    | .relation rid tags members =>
      let relName := (lookupTag tags "name").getD ""
      let relType := (lookupTag tags "water").getD ((lookupTag tags "natural").getD "water")
      let outerWays := members.filterMap fun m =>
        if memberOuter m then (wayLookup els m.ref).map fun wd => (m.ref, wd.nodes)
        else none
      let assembled := assembleMultipolygon proj outerWays (nodesOf els) eps
      assembled.enum.filterMap fun ir =>
        if inRange radius ir.2.1 then
          some ⟨"relation_" ++ intStr rid ++ "_" ++ natStr ir.1,
            if relName = "" then relType ++ "_" ++ intStr rid else relName,
            ir.2.1.map roundPt, ir.2.2⟩
        else none
    | _ => []

/-- The standalone-ways pass of `query_water_features` (lines 228-267). -/
def standaloneWayFeatures (proj : ℚ → ℚ → Pt) (radius eps : ℚ) (els : List Element) :
    List Feature :=
  (wayItems els).filterMap fun kv =>
    if kv.1 ∈ relationWayIds els then none
    else
      let rawPoints := kv.2.nodes.filterMap fun nid =>
        (nodesOf els nid).map fun ll => proj ll.1 ll.2
      if rawPoints.length < 3 then none
      else
        let closed := decide (kv.2.nodes.headI = kv.2.nodes.getLastI) &&
          decide (3 < kv.2.nodes.length)
        let simplified := douglasPeucker eps rawPoints
        if simplified.length < 3 then none
        else if !(inRange radius simplified) then none
        else
          let nm := (lookupTag kv.2.tags "name").getD ""
          let waterType := (lookupTag kv.2.tags "water").getD
            ((lookupTag kv.2.tags "natural").getD "shoreline")
          some ⟨"way_" ++ intStr kv.1,
            if nm = "" then waterType ++ "_" ++ intStr kv.1 else nm,
            simplified.map roundPt, closed⟩

/-- `query_water_features` after the Overpass fetch: the relations pass
followed by the standalone-ways pass, in source order.  `proj` abstracts
`latlon_to_xy(·, ·, center_lat, center_lon)`. -/
def processWaterFeatures (proj : ℚ → ℚ → Pt) (radius eps : ℚ) (els : List Element) :
    List Feature :=
  relationFeatures proj radius eps els ++ standaloneWayFeatures proj radius eps els

/-!  ## Validator (`validate_radarloc` in `radarloc_builder.py`)  -/

/-- A coastline entry of a `.radarloc` document: point list and closed flag. -/
structure VFeature where
  points : List Pt
  closed : Bool
deriving DecidableEq, Repr

/-- The parts of a `.radarloc` document read by the validator (the metadata
fields carry the `.get(..., 0)` defaults already applied). -/
structure Doc where
  coastlines : List VFeature
  center_lat : ℚ
  center_lon : ℚ
  range_nm : ℚ
deriving DecidableEq, Repr

/-- The `result['stats']` mapping; `none` = key absent. -/
structure VStats where
  total_features : Option ℕ
  closed_polygons : Option ℕ
  open_segments : Option ℕ
  total_vertices : Option ℕ
  largest_polygon_km2 : Option ℚ
deriving DecidableEq, Repr

/-- The empty stats mapping `{}`. -/
def emptyStats : VStats := ⟨none, none, none, none, none⟩

/-- The validator's result dict. -/
structure VResult where
  valid : Bool
  warnings : List String
  stats : VStats
deriving DecidableEq, Repr

/-- The shoelace accumulation loop of `validate_radarloc` (lines 53-58):
`for i in range(n): j = (i+1) % n; area += x_i*y_j; area -= x_j*y_i`. -/
def shoelace (pts : List Pt) : ℚ :=
  (List.range pts.length).foldl
    (fun a i =>
      a + (pts.getI i).1 * (pts.getI ((i + 1) % pts.length)).2
        - (pts.getI ((i + 1) % pts.length)).1 * (pts.getI i).2)
    0

/-- `abs(area) / 2.0 / 1e6`. -/
def polygonAreaKm2 (pts : List Pt) : ℚ := |shoelace pts| / 2 / 1000000

/-- The `largest_area` loop: skip open features and features with fewer than
3 points, else take the max of the areas (starting from 0). -/
def largestArea (coastlines : List VFeature) : ℚ :=
  coastlines.foldl
    (fun m c =>
      if c.closed then
        (if c.points.length < 3 then m else max m (polygonAreaKm2 c.points))
      else m)
    0

/-- `validate_radarloc(doc)` from `radarloc_builder.py`. -/
def validateRadarloc (doc : Doc) : VResult :=
  if doc.coastlines = [] then ⟨false, ["No coastlines found"], emptyStats⟩
  else
    let coastlines := doc.coastlines
    let closedCount := (coastlines.filter (·.closed)).length
    let openCount := coastlines.length - closedCount
    let totalPoints := (coastlines.map (·.points.length)).sum
    let w1 : List String :=
      if closedCount = 0 then ["No closed polygons - terrain may not generate correctly"]
      else []
    let w2 : List String :=
      if totalPoints < 100 then
        ["Low vertex count (" ++ natStr totalPoints ++ ") - data may be sparse"]
      else []
    let largest := largestArea coastlines
    let latBad := ¬(-90 ≤ doc.center_lat ∧ doc.center_lat ≤ 90)
    let lonBad := ¬(-180 ≤ doc.center_lon ∧ doc.center_lon ≤ 180)
    let w3 : List String :=
      if latBad then ["Invalid latitude: " ++ toString doc.center_lat] else []
    let w4 : List String :=
      if lonBad then ["Invalid longitude: " ++ toString doc.center_lon] else []
    let rangeBad := doc.range_nm ≤ 0 ∨ 50 < doc.range_nm
    let w5 : List String :=
      if rangeBad then ["Unusual range: " ++ toString doc.range_nm ++ " nm"] else []
    ⟨!(decide latBad) && !(decide lonBad),
     w1 ++ w2 ++ w3 ++ w4 ++ w5,
     ⟨some coastlines.length, some closedCount, some openCount, some totalPoints,
      some (pyRound2 largest)⟩⟩

/-- Specification-side shoelace sum (from the spec's formula): the signed sum
`Σ (xᵢ yᵢ₊₁ − xᵢ₊₁ yᵢ)` with indices modulo the ring length. -/
def specShoelace (pts : List Pt) : ℚ :=
  ∑ i ∈ Finset.range pts.length,
    ((pts.getI i).1 * (pts.getI ((i + 1) % pts.length)).2
      - (pts.getI ((i + 1) % pts.length)).1 * (pts.getI i).2)

/-- Specification-side largest area (from the claim's wording): the maximum,
over closed features with at least 3 points, of `½|shoelace| / 1e6`, with 0
when no such feature exists, rounded to 2 decimal places. -/
def specLargest (doc : Doc) : ℚ :=
  pyRound2
    (((doc.coastlines.filter fun c => c.closed && decide (3 ≤ c.points.length)).map
      fun c => |specShoelace c.points| / 2 / 1000000).foldr max 0)

theorem foldl_add_sub (P Q : ℕ → ℚ) :
    ∀ (n : ℕ) (c : ℚ),
      (List.range n).foldl (fun a i => a + P i - Q i) c =
        c + ∑ i ∈ Finset.range n, (P i - Q i) := by
  intro n
  induction n with
  | zero => intro c; simp
  | succ n ih =>
    intro c
    rw [List.range_succ, List.foldl_append, ih, Finset.sum_range_succ]
    simp only [List.foldl_cons, List.foldl_nil]
    ring

theorem shoelace_eq_spec (pts : List Pt) : shoelace pts = specShoelace pts := by
  unfold shoelace specShoelace
  rw [foldl_add_sub
    (fun i => (pts.getI i).1 * (pts.getI ((i + 1) % pts.length)).2)
    (fun i => (pts.getI ((i + 1) % pts.length)).1 * (pts.getI i).2)]
  rw [zero_add]

theorem foldr_max_swap (x m : ℚ) :
    ∀ l : List ℚ, l.foldr max (max m x) = max x (l.foldr max m) := by
  intro l
  induction l with
  | nil => exact max_comm m x
  | cons y ys ih =>
    simp only [List.foldr_cons, ih]
    rw [max_left_comm]

theorem largestArea_eq_spec (l : List VFeature) :
    ∀ m : ℚ,
      l.foldl
        (fun m c =>
          if c.closed then
            (if c.points.length < 3 then m else max m (polygonAreaKm2 c.points))
          else m) m =
      ((l.filter fun c => c.closed && decide (3 ≤ c.points.length)).map
        fun c => polygonAreaKm2 c.points).foldr max m := by
  induction l with
  | nil => intro m; rfl
  | cons c rest ih =>
    intro m
    rw [List.foldl_cons]
    cases hc : c.closed with
    | false =>
      rw [List.filter_cons_of_neg (by simp [hc])]
      exact ih m
    | true =>
      by_cases hlen : c.points.length < 3
      · rw [if_pos rfl, if_pos hlen, List.filter_cons_of_neg (by simp [hc]; omega)]
        exact ih m
      · rw [if_pos rfl, if_neg hlen, List.filter_cons_of_pos (by simp [hc]; omega),
          List.map_cons, List.foldr_cons, ih (max m (polygonAreaKm2 c.points))]
        exact foldr_max_swap _ _ _

/-!  ## Claim theorems  -/

/-- C4 counterexample: with the origin at the north pole (latitude 90), the
claimed round-trip identity fails in exact real arithmetic: projecting
(lat 0, lon 1) and back yields longitude 0, not 1, because the longitude
divisor `METERS_PER_DEGREE * cos(radians 90)` is zero. -/
theorem c4_counterexample :
    xy_to_latlon (latlon_to_xy 0 1 90 0).1 (latlon_to_xy 0 1 90 0).2 90 0 ≠
      ((0 : ℝ), (1 : ℝ)) := by
  have hc : Real.cos (radians 90) = 0 := by
    have h : radians 90 = Real.pi / 2 := by
      unfold radians
      ring
    rw [h, Real.cos_pi_div_two]
  intro h
  have h2 := congrArg Prod.snd h
  simp only [xy_to_latlon, latlon_to_xy, hc, mul_zero, div_zero, zero_add] at h2
  exact absurd h2 (by norm_num)

/-- C4 (amended): for every geographic point and every origin whose latitude
has nonzero cosine (in particular any origin strictly between the poles),
converting to plane coordinates and back is the identity in exact real
arithmetic: `xy_to_latlon (latlon_to_xy lat lon o) o = (lat, lon)`. -/
theorem c4_roundtrip (lat lon origin_lat origin_lon : ℝ)
    (h : Real.cos (radians origin_lat) ≠ 0) :
    xy_to_latlon (latlon_to_xy lat lon origin_lat origin_lon).1
      (latlon_to_xy lat lon origin_lat origin_lon).2 origin_lat origin_lon =
      (lat, lon) := by
  have hK : METERS_PER_DEGREE ≠ 0 := by
    unfold METERS_PER_DEGREE
    norm_num
  unfold xy_to_latlon latlon_to_xy
  dsimp only
  rw [Prod.mk.injEq]
  constructor
  · field_simp
  · field_simp
    ring

/-- Witness for C4's amended theorem at the concrete origin (0, 5) and point
(1, 2). -/
theorem c4_roundtrip_witness :
    Real.cos (radians 0) ≠ 0 ∧
      xy_to_latlon (latlon_to_xy 1 2 0 5).1 (latlon_to_xy 1 2 0 5).2 0 5 = (1, 2) := by
  have hcos : Real.cos (radians 0) ≠ 0 := by
    rw [show radians 0 = 0 by
      unfold radians
      ring, Real.cos_zero]
    norm_num
  exact ⟨hcos, c4_roundtrip 1 2 0 5 hcos⟩

/-- C10: the longitude component of the inverse projection divides by
`METERS_PER_DEGREE * cos(radians origin_lat)` (`lonDivisor`); that divisor
is exactly zero at origin latitude +90 and −90 (the poles), and nonzero for
every origin latitude strictly between −90 and 90, where the inverse is
therefore total. -/
theorem c10_pole_divisor :
    (∀ x y olat olon : ℝ,
      (xy_to_latlon x y olat olon).2 = olon + x / lonDivisor olat) ∧
    lonDivisor 90 = 0 ∧ lonDivisor (-90) = 0 ∧
    ∀ l : ℝ, -90 < l → l < 90 → lonDivisor l ≠ 0 := by
  refine ⟨fun x y olat olon => rfl, ?_, ?_, ?_⟩
  · unfold lonDivisor
    rw [show radians 90 = Real.pi / 2 by
      unfold radians
      ring, Real.cos_pi_div_two, mul_zero]
  · unfold lonDivisor
    rw [show radians (-90) = -(Real.pi / 2) by
      unfold radians
      ring, Real.cos_neg, Real.cos_pi_div_two, mul_zero]
  · intro l h1 h2
    unfold lonDivisor
    have hK : METERS_PER_DEGREE ≠ 0 := by
      unfold METERS_PER_DEGREE
      norm_num
    have hπ := Real.pi_pos
    have hcos : 0 < Real.cos (radians l) := by
      apply Real.cos_pos_of_mem_Ioo
      constructor
      · unfold radians
        nlinarith
      · unfold radians
        nlinarith
    exact mul_ne_zero hK (ne_of_gt hcos)

/-- Witness for C10 at origin latitude 0: strictly between the poles and the
divisor is nonzero there. -/
theorem c10_witness : ((-90 : ℝ) < 0 ∧ (0 : ℝ) < 90) ∧ lonDivisor 0 ≠ 0 :=
  ⟨⟨by norm_num, by norm_num⟩, c10_pole_divisor.2.2.2 0 (by norm_num) (by norm_num)⟩

/-- C8: for every document whose coastline list is empty, the validator
returns valid = false with exactly the single warning "No coastlines found"
and an empty statistics mapping; no further rule runs, whatever the
metadata. -/
theorem c8_empty_coastlines (doc : Doc) (h : doc.coastlines = []) :
    validateRadarloc doc = ⟨false, ["No coastlines found"], emptyStats⟩ := by
  unfold validateRadarloc
  rw [if_pos h]

/-- Witness for C8: a document with empty coastlines whose metadata
(latitude 95, longitude 200, range 0) would otherwise trigger the
invalid-latitude, invalid-longitude and unusual-range warnings. -/
theorem c8_witness :
    (Doc.mk [] 95 200 0).coastlines = [] ∧
      validateRadarloc (Doc.mk [] 95 200 0) =
        ⟨false, ["No coastlines found"], emptyStats⟩ :=
  ⟨rfl, c8_empty_coastlines (Doc.mk [] 95 200 0) rfl⟩

/-- The 1 km × 1 km closed square document of the spec's validator example. -/
def squareDoc : Doc :=
  ⟨[⟨[(0, 0), (1000, 0), (1000, 1000), (0, 1000)], true⟩], 0, 0, 5⟩

/-- C6: for every document with a nonempty coastline list, the validator's
`largest_polygon_km2` statistic equals the maximum over closed features with
at least 3 points of `½|shoelace| / 1e6`, rounded to 2 decimal places, and 0
when no such feature exists (open or short features contribute nothing); in
particular the closed 1000 m square yields exactly 1.0 km². -/
theorem c6_largest_polygon :
    (∀ doc : Doc, doc.coastlines ≠ [] →
      (validateRadarloc doc).stats.largest_polygon_km2 = some (specLargest doc)) ∧
    (validateRadarloc squareDoc).stats.largest_polygon_km2 = some 1 := by
  constructor
  · intro doc h
    unfold validateRadarloc
    rw [if_neg h]
    dsimp only
    unfold specLargest largestArea
    rw [largestArea_eq_spec]
    have hfun : (fun c : VFeature => polygonAreaKm2 c.points) =
        fun c : VFeature => |specShoelace c.points| / 2 / 1000000 := by
      funext c
      unfold polygonAreaKm2
      rw [shoelace_eq_spec]
    rw [hfun]
  · with_unfolding_all rfl

/-- Witness for C6's general statement at the concrete square document. -/
theorem c6_witness :
    squareDoc.coastlines ≠ [] ∧
      (validateRadarloc squareDoc).stats.largest_polygon_km2 =
        some (specLargest squareDoc) :=
  ⟨by decide, c6_largest_polygon.1 squareDoc (by decide)⟩

/-- C2: for every point list and every tolerance ε > 0, the simplifier
returns a subsequence of the input preserving the first and last points, and
every input point missing from the output lies within distance ε of some
chord of consecutive output points (squared distances: `perpDistSq ≤ ε²`,
which in exact arithmetic is `distance ≤ ε`; zero-length chords measure the
Euclidean distance from the chord's start, see `perpDistSq`). -/
theorem c2_simplifier_sound (eps : ℚ) (heps : 0 < eps) (pts : List Pt) :
    List.Sublist (douglasPeucker eps pts) pts ∧
    (douglasPeucker eps pts).head? = pts.head? ∧
    (douglasPeucker eps pts).getLast? = pts.getLast? ∧
    ∀ p ∈ pts, p ∉ douglasPeucker eps pts →
      ∃ a b l₁ l₂, douglasPeucker eps pts = l₁ ++ a :: b :: l₂ ∧
        perpDistSq a b p ≤ eps ^ 2 := by
  have h := le_of_lt heps
  refine ⟨dp_sublist h pts.length pts (le_refl _),
    dp_head? h pts.length pts (le_refl _),
    dp_getLast? h pts.length pts (le_refl _), ?_⟩
  intro p hp hnot
  rcases dp_within h pts.length pts (le_refl _) p hp with hin | hpair
  · exact absurd hin hnot
  · exact hpair

/-- Concrete input for the C2 witness. -/
def c2pts : List Pt := [(0, 0), (5, 7), (10, 0), (15, 7), (20, 0)]

/-- Witness for C2 at tolerance 1 on a concrete zig-zag. -/
theorem c2_witness :
    (0 : ℚ) < 1 ∧
      (List.Sublist (douglasPeucker 1 c2pts) c2pts ∧
        (douglasPeucker 1 c2pts).head? = c2pts.head? ∧
        (douglasPeucker 1 c2pts).getLast? = c2pts.getLast? ∧
        ∀ p ∈ c2pts, p ∉ douglasPeucker 1 c2pts →
          ∃ a b l₁ l₂, douglasPeucker 1 c2pts = l₁ ++ a :: b :: l₂ ∧
            perpDistSq a b p ≤ 1 ^ 2) :=
  ⟨by norm_num, c2_simplifier_sound 1 (by norm_num) c2pts⟩

/-- C7: the simplifier is idempotent — for every point list and tolerance
ε > 0, simplifying an already-simplified polyline with the same ε returns it
unchanged. -/
theorem c7_simplifier_idempotent (eps : ℚ) (heps : 0 < eps) (pts : List Pt) :
    douglasPeucker eps (douglasPeucker eps pts) = douglasPeucker eps pts :=
  dp_idem (le_of_lt heps) pts.length pts (le_refl _)

/-- Concrete input for the C7 witness. -/
def c7pts : List Pt := [(0, 0), (3, 4), (6, 0), (9, 4), (12, 0)]

/-- Witness for C7 at tolerance 1 on a concrete zig-zag. -/
theorem c7_witness :
    (0 : ℚ) < 1 ∧
      douglasPeucker 1 (douglasPeucker 1 c7pts) = douglasPeucker 1 c7pts :=
  ⟨by norm_num, c7_simplifier_idempotent 1 (by norm_num) c7pts⟩

/-- C5 counterexample: a seed segment that already starts and ends at the
same node (node 5, ring closed from the outset) is nevertheless extended by
the connecting segment 5→7 — the extension appends the segment's points and
marks it used, contradicting "no further segment is appended once the
trailing node equals the starting node". -/
theorem c5_counterexample :
    extendLoop [⟨5, 5, [(0, 0), (0, 1), (0, 0)]⟩, ⟨5, 7, [(0, 0), (3, 0)]⟩] 5 4
      [(0, 0), (0, 1), (0, 0)] 5 [0] =
      ([(0, 0), (0, 1), (0, 0), (3, 0)], 7, [1, 0]) := by
  with_unfolding_all rfl

/-- C5 (amended): the extension loop stops immediately once the trailing
node equals the start node as the result of an append — the appending step
that closes the ring is the last one, and nothing further is appended.
Closure is only checked after an append, so a seed segment that already
starts and ends at the same node may still be extended once (see the
counterexample). -/
theorem c5_closure_stops (segs : List Seg) (startNode : ℤ) (fuel : ℕ) (pts : List Pt)
    (cur : ℤ) (used : List ℕ) (i : ℕ) (sg : Seg) (fwd : Bool)
    (hfc : findConn segs used cur = some (i, sg, fwd))
    (hclose : (if fwd then sg.end_node else sg.start_node) = startNode) :
    extendLoop segs startNode (fuel + 1) pts cur used =
      ((if fwd then pts ++ sg.points.tail else pts ++ sg.points.dropLast.reverse),
        startNode, i :: used) := by
  rw [extendLoop, hfc]
  dsimp only
  rw [if_pos hclose, hclose]

/-- Witness for C5's amended theorem: a forward append that closes the ring
halts the loop at once. -/
theorem c5_witness :
    extendLoop [⟨7, 9, [(0, 0), (2, 2)]⟩] 9 1 [(5, 5)] 7 [] =
      ((if true then [((5 : ℚ), (5 : ℚ))] ++ [((0 : ℚ), (0 : ℚ)), (2, 2)].tail
        else [((5 : ℚ), (5 : ℚ))] ++ [((0 : ℚ), (0 : ℚ)), (2, 2)].dropLast.reverse),
        9, [0]) :=
  c5_closure_stops [⟨7, 9, [(0, 0), (2, 2)]⟩] 9 0 [(5, 5)] 7 [] 0
    ⟨7, 9, [(0, 0), (2, 2)]⟩ true (by with_unfolding_all rfl) (by with_unfolding_all rfl)

theorem unusedCount_nil (n : ℕ) : unusedCount n [] = n := by
  unfold unusedCount
  rw [List.filter_eq_self.mpr]
  · exact List.length_range n
  · intro a _
    simp

/-- C9: ring assembly terminates on every finite input — seeding a pass
marks a previously-unused segment as used and the extension loop only grows
the used set, so the outer loop's result is already stable at fuel equal to
the segment count: any fuel at least that large computes the same value as
`assembleMultipolygon` (which runs with exactly that fuel, mirroring the
source's `2 × len(segments)` inner bound and `while used < segments` outer
loop). -/
theorem c9_assembly_terminates :
    (∀ (segs : List Seg) (startNode : ℤ) (fuel : ℕ) (pts : List Pt) (cur : ℤ)
        (used : List ℕ) (i : ℕ), firstUnused segs.length used = some i →
      i ∉ used ∧ i ∈ (extendLoop segs startNode fuel pts cur (i :: used)).2.2) ∧
    ∀ (proj : ℚ → ℚ → Pt) (ws : List (ℤ × List ℤ)) (nodes : ℤ → Option (ℚ × ℚ))
        (eps : ℚ) (F : ℕ), (segmentsOf proj ws nodes).length ≤ F →
      assembleLoop (segmentsOf proj ws nodes) eps F [] =
        assembleMultipolygon proj ws nodes eps := by
  constructor
  · intro segs startNode fuel pts cur used i hfu
    refine ⟨(firstUnused_some hfu).2, ?_⟩
    exact extendLoop_used_mono segs startNode fuel pts cur (i :: used) i
      (List.mem_cons_self _ _)
  · intro proj ws nodes eps F hF
    unfold assembleMultipolygon
    apply assembleLoop_fuel_irrel (segmentsOf proj ws nodes) eps
      (segmentsOf proj ws nodes).length []
    · rw [unusedCount_nil]
    · rw [unusedCount_nil]
      exact hF
    · rw [unusedCount_nil]

/-- Witness for C9 at a one-segment input and surplus fuel 7. -/
theorem c9_witness :
    (0 ∉ ([] : List ℕ) ∧
      0 ∈ (extendLoop [⟨1, 2, [(0, 0), (1, 0)]⟩] 1 4 [(0, 0), (1, 0)] 2 [0]).2.2) ∧
    assembleLoop (segmentsOf (fun la lo => (la, lo)) [(1, [10, 11])] fun _ => none) 50 7 [] =
      assembleMultipolygon (fun la lo => (la, lo)) [(1, [10, 11])] (fun _ => none) 50 :=
  ⟨c9_assembly_terminates.1 [⟨1, 2, [(0, 0), (1, 0)]⟩] 1 4 [(0, 0), (1, 0)] 2 [] 0
    (by with_unfolding_all rfl),
   c9_assembly_terminates.2 (fun la lo => (la, lo)) [(1, [10, 11])] (fun _ => none) 50 7
    (by decide)⟩

/-- The projected side length of the concrete square example:
`0.01° × METERS_PER_DEGREE` (center latitude 0, where `cos = 1`). -/
def sqA : ℚ := 111132954 / 100000

/-- The source projection `latlon_to_xy(·, ·, 0, 0)` at center (0, 0), where
`cos(radians 0) = 1`, as an exact rational function. -/
def sqProj : ℚ → ℚ → Pt := fun la lo =>
  (lo * (111132954 / 1000), la * (111132954 / 1000))

/-- Node table for the concrete ring-assembly examples. -/
def sqNodes : ℤ → Option (ℚ × ℚ) := fun nid =>
  if nid = 10 then some (0, 0)
  else if nid = 11 then some (0, 1 / 100)
  else if nid = 12 then some (1 / 100, 1 / 100)
  else if nid = 13 then some (1 / 100, 0)
  else if nid = 20 then some (0, 0)
  else if nid = 21 then some (0, 1 / 100)
  else if nid = 22 then some (1 / 100, 1 / 100)
  else none

/-- Four ways forming a square ring: 10→11, 11→12, 12→13, 13→10. -/
def sqWays : List (ℤ × List ℤ) := [(1, [10, 11]), (2, [11, 12]), (3, [12, 13]), (4, [13, 10])]

/-- C1: every ring the assembler outputs is a raw assembled ring classified
closed exactly when its trailing node equals its starting node and it has at
least 3 pre-simplification points, then simplified with the tolerance and
kept exactly when at least 3 simplified points remain
(`assembleMultipolygon` = raw rings composed with `ringFinish`); the four
square segments assemble into one closed ring of 4 unique points plus the
wraparound duplicate, and a single unconnected segment yields an open
(closed = false) ring. -/
theorem c1_ring_classification :
    (∀ (proj : ℚ → ℚ → Pt) (ws : List (ℤ × List ℤ)) (nodes : ℤ → Option (ℚ × ℚ))
        (eps : ℚ),
      assembleMultipolygon proj ws nodes eps =
        (rawRingsLoop (segmentsOf proj ws nodes)
          (segmentsOf proj ws nodes).length []).filterMap (ringFinish eps)) ∧
    assembleMultipolygon sqProj sqWays sqNodes 50 =
      [([(0, 0), (sqA, 0), (sqA, sqA), (0, sqA), (0, 0)], true)] ∧
    assembleMultipolygon sqProj [(9, [20, 21, 22])] sqNodes 50 =
      [([(0, 0), (sqA, 0), (sqA, sqA)], false)] := by
  refine ⟨?_, ?_, ?_⟩
  · intro proj ws nodes eps
    unfold assembleMultipolygon
    exact assembleLoop_eq_rawRings _ eps _ []
  · with_unfolding_all rfl
  · with_unfolding_all rfl

theorem string_data_inj {s t : String} (h : s.data = t.data) : s = t := by
  cases s
  cases t
  exact congrArg String.mk h

theorem string_append_left_cancel {p a b : String} (h : p ++ a = p ++ b) : a = b := by
  have hd := congrArg String.data h
  simp only [String.data_append] at hd
  exact string_data_inj (List.append_cancel_left hd)

theorem natStr_head_ne_dash (n : ℕ) : (natStr n).data.head? ≠ some '-' := by
  unfold natStr
  by_cases hn : n = 0
  · rw [if_pos hn]
    decide
  · rw [if_neg hn]
    rcases hx : ((Nat.digits 10 n).map digitChar).reverse with _ | ⟨c, rest⟩
    · exfalso
      rw [List.reverse_eq_nil_iff, List.map_eq_nil_iff] at hx
      exact ((@Nat.digits_ne_nil_iff_ne_zero 10 _).mpr hn) hx
    · have hc : c ∈ (Nat.digits 10 n).map digitChar := by
        rw [← List.mem_reverse, hx]
        exact List.mem_cons_self _ _
      rcases List.mem_map.mp hc with ⟨d, _, hd⟩
      show (String.mk (c :: rest)).data.head? ≠ some '-'
      intro h
      have : c = '-' := by simpa using h
      rw [← hd] at this
      exact digitChar_ne_dash d this

theorem intStr_inj {i j : ℤ} (h : intStr i = intStr j) : i = j := by
  unfold intStr at h
  by_cases hi : i < 0 <;> by_cases hj : j < 0
  · rw [if_pos hi, if_pos hj] at h
    have := natStr_inj (string_append_left_cancel h)
    omega
  · rw [if_pos hi, if_neg hj] at h
    exfalso
    apply natStr_head_ne_dash j.toNat
    rw [← h]
    have hd : (("-" ++ natStr i.natAbs)).data = '-' :: (natStr i.natAbs).data := by
      simp only [String.data_append]
      rfl
    rw [hd]
    rfl
  · rw [if_neg hi, if_pos hj] at h
    exfalso
    apply natStr_head_ne_dash i.toNat
    rw [h]
    have hd : (("-" ++ natStr j.natAbs)).data = '-' :: (natStr j.natAbs).data := by
      simp only [String.data_append]
      rfl
    rw [hd]
    rfl
  · rw [if_neg hi, if_neg hj] at h
    have := natStr_inj h
    omega

theorem rel_ne_way (x y z : String) :
    "relation_" ++ x ++ "_" ++ y ≠ "way_" ++ z := by
  intro h
  have h1 : ("relation_" ++ x ++ "_" ++ y).data.head? = some 'r' := by
    simp only [String.data_append, List.head?_append]
    rfl
  have h2 : ("way_" ++ z).data.head? = some 'w' := by
    simp only [String.data_append, List.head?_append]
    rfl
  rw [h, h2] at h1
  exact absurd (Option.some_injective _ h1) (by decide)

theorem relationFeatures_id_shape (proj : ℚ → ℚ → Pt) (radius eps : ℚ)
    (els : List Element) :
    ∀ f ∈ relationFeatures proj radius eps els,
      ∃ rid i, f.id = "relation_" ++ intStr rid ++ "_" ++ natStr i := by
  intro f hf
  unfold relationFeatures at hf
  rw [List.mem_flatMap] at hf
  obtain ⟨el, _, hmem⟩ := hf
  cases el with
  | node _ _ _ => simp at hmem
  | way _ _ _ => simp at hmem
  | relation rid tags members =>
    dsimp only at hmem
    rw [List.mem_filterMap] at hmem
    obtain ⟨ir, _, hir⟩ := hmem
    split at hir
    · refine ⟨rid, ir.1, ?_⟩
      rw [← Option.some_inj.mp hir]
    · exact absurd hir (by simp)

theorem standalone_id_shape (proj : ℚ → ℚ → Pt) (radius eps : ℚ)
    (els : List Element) :
    ∀ f ∈ standaloneWayFeatures proj radius eps els,
      ∃ w, w ∉ relationWayIds els ∧ f.id = "way_" ++ intStr w := by
  intro f hf
  unfold standaloneWayFeatures at hf
  rw [List.mem_filterMap] at hf
  obtain ⟨kv, _, hkv⟩ := hf
  by_cases h1 : kv.1 ∈ relationWayIds els
  · rw [if_pos h1] at hkv
    exact absurd hkv (by simp)
  · rw [if_neg h1] at hkv
    dsimp only at hkv
    refine ⟨kv.1, h1, ?_⟩
    split at hkv
    · exact absurd hkv (by simp)
    · split at hkv
      · exact absurd hkv (by simp)
      · split at hkv
        · exact absurd hkv (by simp)
        · rw [← Option.some_inj.mp hkv]

/-- Concrete Overpass-shaped input for C3's end-to-end example: one relation
(id 100) with two outer ways (1 and 2) that close into a square ring, plus
one unrelated standalone way (id 7). -/
def c3els : List Element :=
  [.node 10 0 0, .node 11 0 (1 / 100), .node 12 (1 / 100) (1 / 100),
   .node 13 (1 / 100) 0,
   .node 20 0 (2 / 100), .node 21 (1 / 100) (2 / 100), .node 22 (1 / 100) (3 / 100),
   .way 1 [10, 11, 12] [], .way 2 [12, 13, 10] [],
   .way 7 [20, 21, 22] [("name", "Shore")],
   .relation 100 [("name", "Lake")] [⟨"way", 1, some "outer"⟩, ⟨"way", 2, some "outer"⟩]]

/-- C3: a way id consumed by any relation member with role "outer" or empty
role never yields a standalone `way_{id}` feature, whatever the radius
filter or node data do; and the concrete one-relation-plus-one-way input
produces exactly two features: the relation-derived closed one
(`relation_100_0`) and the standalone `way_7`. -/
theorem c3_relation_ways_not_standalone :
    (∀ (proj : ℚ → ℚ → Pt) (radius eps : ℚ) (els : List Element) (wid : ℤ),
      wid ∈ relationWayIds els →
      ∀ f ∈ processWaterFeatures proj radius eps els,
        f.id ≠ "way_" ++ intStr wid) ∧
    (processWaterFeatures sqProj 2000 50 c3els).map (fun f => (f.id, f.closed)) =
      [("relation_100_0", true), ("way_7", false)] := by
  constructor
  · intro proj radius eps els wid hwid f hf hne
    unfold processWaterFeatures at hf
    rcases List.mem_append.mp hf with hf | hf
    · obtain ⟨rid, i, hid⟩ := relationFeatures_id_shape proj radius eps els f hf
      rw [hid] at hne
      exact rel_ne_way (intStr rid) (natStr i) (intStr wid) hne
    · obtain ⟨w, hw, hid⟩ := standalone_id_shape proj radius eps els f hf
      rw [hid] at hne
      have heq := intStr_inj (string_append_left_cancel hne)
      rw [heq] at hw
      exact hw hwid
  · with_unfolding_all rfl

/-- Witness for C3's universal statement at the concrete input: way 1 is
consumed by relation 100, so no feature has id `way_1`. -/
theorem c3_witness :
    (1 : ℤ) ∈ relationWayIds c3els ∧
      ∀ f ∈ processWaterFeatures sqProj 2000 50 c3els, f.id ≠ "way_" ++ intStr 1 :=
  ⟨by decide, c3_relation_ways_not_standalone.1 sqProj 2000 50 c3els 1 (by decide)⟩
